import Mathlib

/-!
Verification of the Helm loom-tree core: a shallow embedding of the tree
utilities (`fileSystem.ts`), the retry wrapper (`openrouter.ts`), the user
commands of `StatusRibbon.tsx`, and the agent-panel control flow of
`Scout.tsx`, together with proofs of the structural properties stated in
the specification.

JavaScript `Map<string, TreeNode>` objects are embedded as association
lists in insertion order (`NodeMap`); `Map.get`, `Map.set` and
`Map.delete` become `lookupNode`, `setNode` and the corresponding
filters.  Recursive walks that the source writes as `while` loops over
parent pointers, or as recursion over `childIds`, are given an explicit
fuel argument as a termination device; for structurally valid trees the
fuel is proved sufficient, so the embedded functions agree with the
source on every input on which the source terminates.
-/

namespace Helm

/-- The `lockReason` union type of `types.ts`. -/
inductive LockReason where
  | expanding
  | scoutActive
  | witnessActive
  | copilotDeciding
  | tridentActive
deriving DecidableEq, Repr

/-- `TreeNode` from `types.ts`.  `lockReason` and `everExpanded` are the
optional fields; a JS object literal that omits them yields `none`. -/
structure TreeNode where
  id : String
  text : String
  parentId : Option String
  childIds : List String
  locked : Bool
  lockReason : Option LockReason := none
  everExpanded : Option Bool := none
deriving DecidableEq, Repr

/-- A JS `Map<string, β>` in insertion order. -/
abbrev EntryMap (β : Type) := List (String × β)

/-- `Map.get`. -/
def lookupEntry {β : Type} (m : EntryMap β) (i : String) : Option β :=
  (m.find? (fun pr => pr.1 == i)).map (·.2)

/-- `Map.set`: replaces the value in place when the key is present,
otherwise appends the binding at the end. -/
def setEntry {β : Type} (m : EntryMap β) (i : String) (b : β) : EntryMap β :=
  if m.any (fun pr => pr.1 == i) then
    m.map (fun pr => if pr.1 == i then (i, b) else pr)
  else
    m ++ [(i, b)]

/-- A JS `Map<string, TreeNode>` in insertion order. -/
abbrev NodeMap := EntryMap TreeNode

/-- `Map.get` on a node map. -/
def lookupNode (m : NodeMap) (i : String) : Option TreeNode :=
  lookupEntry m i

/-- `Map.set` on a node map. -/
def setNode (m : NodeMap) (i : String) (nd : TreeNode) : NodeMap :=
  setEntry m i nd

/-- `Tree` from `types.ts`. -/
structure Tree where
  id : String
  name : String
  nodes : NodeMap
  rootId : String
  currentNodeId : String
  bookmarkedNodeIds : List String
deriving DecidableEq, Repr

/-- `tree.nodes.get(i)`. -/
def Tree.get (t : Tree) (i : String) : Option TreeNode :=
  lookupNode t.nodes i

/-! ## Structural relations and the tree validity invariant -/

/-- `c` is listed among the children of `p` in `t`. -/
def Desc (t : Tree) (p c : String) : Prop :=
  ∃ nd, t.get p = some nd ∧ c ∈ nd.childIds

/-- `RPath t i l`: `l` is a root-to-`i` path along child edges,
listed in root-to-`i` order (so `l` starts at `t.rootId` and ends at `i`). -/
inductive RPath (t : Tree) : String → List String → Prop where
  | root : RPath t t.rootId [t.rootId]
  | step {p l c} : RPath t p l → Desc t p c → RPath t c (l ++ [c])

/-- A node id is reachable from the root. -/
def Reach (t : Tree) (i : String) : Prop :=
  ∃ l, RPath t i l

/-- `DescStar t x k`: `k` lies in the subtree below `x` (including `x`). -/
inductive DescStar (t : Tree) (x : String) : String → Prop where
  | refl : DescStar t x x
  | tail {j k} : DescStar t x j → Desc t j k → DescStar t x k

/-- The tree validity invariant of the specification: the node mapping is a
single tree rooted at `rootId` — keys are unique and match the stored
node's `id`, the root exists with a null parent, parent and child links
agree in both directions, child lists are duplicate-free, and every stored
node is reachable from the root (no orphans, no cycles). -/
structure ValidTree (t : Tree) : Prop where
  keysNodup : (t.nodes.map Prod.fst).Nodup
  keyMatch : ∀ pr ∈ t.nodes, pr.2.id = pr.1
  rootMem : ∃ nd, t.get t.rootId = some nd ∧ nd.parentId = none
  childOk : ∀ pr ∈ t.nodes, ∀ c ∈ pr.2.childIds,
    ∃ cn, t.get c = some cn ∧ cn.parentId = some pr.1
  parentOk : ∀ pr ∈ t.nodes, pr.1 ≠ t.rootId →
    ∃ p pn, pr.2.parentId = some p ∧ t.get p = some pn ∧ pr.1 ∈ pn.childIds
  childNodup : ∀ pr ∈ t.nodes, pr.2.childIds.Nodup
  reachAll : ∀ pr ∈ t.nodes, Reach t pr.1

/-! ## `fileSystem.ts`: tree creation, extraction, branch text -/

/-- JavaScript `String.prototype.trim`: strip whitespace from both ends.
Embedded over the character list so that it evaluates by reduction. -/
def jsTrim (s : String) : String :=
  ⟨((s.data.dropWhile Char.isWhitespace).reverse.dropWhile Char.isWhitespace).reverse⟩

/-- `createNewTree` (`fileSystem.ts`): the pure tree construction shared by
the localStorage and Electron branches.  The generated
`node_${crypto.randomUUID()}` root id is passed in as a parameter; the
name-collision check and `saveTree` call belong to the excluded
persistence layer. -/
def createNewTree (name : String) (rootId : String) : Tree :=
  let rootNode : TreeNode :=
    { id := rootId, text := "", parentId := none, childIds := [], locked := false }
  { id := jsTrim name
    name := name
    nodes := [(rootId, rootNode)]
    rootId := rootId
    currentNodeId := rootId
    bookmarkedNodeIds := [] }

/-- Sequentially copies a list of child ids with `f`, threading the
accumulated node map and collecting the returned new ids, mirroring the
`oldNode.childIds.forEach` loop inside `extractSubtree.copyNode`. -/
def copyChildrenWith (f : String → Option String → NodeMap → NodeMap × String) :
    List String → String → NodeMap → NodeMap × List String
  | [], _, acc => (acc, [])
  | cid :: rest, pid, acc =>
    let r1 := f cid (some pid) acc
    let r2 := copyChildrenWith f rest pid r1.1
    (r2.1, r1.2 :: r2.2)

/-- `extractSubtree.copyNode` (`fileSystem.ts`, identical in the
localStorage and Electron branches): recursively copies the subtree under
`oldNodeId` into the accumulated map, with fresh ownership (parent set to
`newParentId`, `locked: false`, no `lockReason`/`everExpanded`), returning
the copied node's id.  The JS object is inserted before its `childIds`
are pushed; the pure version inserts the same placeholder and then
re-`set`s the finished node, which leaves the map identical.  `fuel`
bounds the recursion depth and is proved sufficient for valid trees. -/
def copyNode (t : Tree) : Nat → String → Option String → NodeMap → NodeMap × String
  | 0, oldNodeId, _, acc => (acc, oldNodeId)
  | fuel + 1, oldNodeId, newParentId, acc =>
    match t.get oldNodeId with
    | none => (acc, oldNodeId)
    | some oldNode =>
      let base : TreeNode :=
        { id := oldNode.id, text := oldNode.text, parentId := newParentId,
          childIds := [], locked := false }
      let acc1 := setNode acc oldNode.id base
      let r := copyChildrenWith (fun c np a => copyNode t fuel c np a)
        oldNode.childIds oldNode.id acc1
      (setNode r.1 oldNode.id { base with childIds := r.2 }, oldNode.id)

/-- `extractSubtree` (`fileSystem.ts`): throws (`none`) when the node is
missing, otherwise builds a new tree whose root is the copy of `nodeId`.
The duplicate-name check and `saveTree` belong to the excluded
persistence layer. -/
def extractSubtree (t : Tree) (nodeId : String) (newTreeName : String) : Option Tree :=
  match t.get nodeId with
  | none => none
  | some _ =>
    let treeId := jsTrim newTreeName
    let r := copyNode t (t.nodes.length + 1) nodeId none []
    some
      { id := treeId
        name := newTreeName
        nodes := r.1
        rootId := r.2
        currentNodeId := r.2
        bookmarkedNodeIds := [] }

/-- The shared `while (currentId)` walk of `getBranchText` and
`getCurrentNodeStartPosition` (`fileSystem.ts`): follows `parentId`
pointers upward, `unshift`-ing each node, so the result is in
root-to-node order.  `fuel` bounds the walk and is proved sufficient for
valid trees. -/
def collectToRoot (t : Tree) : Nat → Option String → List TreeNode → List TreeNode
  | 0, _, acc => acc
  | _ + 1, none, acc => acc
  | fuel + 1, some i, acc =>
    match t.get i with
    | none => acc
    | some node => collectToRoot t fuel node.parentId (node :: acc)

/-- `getBranchText` (`fileSystem.ts`): joins the `text` fields from the
root down to `nodeId`. -/
def getBranchText (t : Tree) (nodeId : String) : String :=
  String.join ((collectToRoot t (t.nodes.length + 1) (some nodeId) []).map (·.text))

/-- `getCurrentNodeStartPosition` (`fileSystem.ts`): sums the lengths of
all collected texts except the last (the node's own text). -/
def getCurrentNodeStartPosition (t : Tree) (nodeId : String) : Nat :=
  let nodesToCurrent := collectToRoot t (t.nodes.length + 1) (some nodeId) []
  ((nodesToCurrent.dropLast).map (fun n => n.text.length)).sum

/-! ## `fileSystem.ts`: persistence boundary (load and import) -/

/-- A tree as parsed from persisted JSON: `nodes` is an array, with
whatever `locked`/`lockReason` values were stored on disk, and
`bookmarkedNodeIds` may be absent. -/
structure PersistedTree where
  id : String
  name : String
  nodes : List TreeNode
  rootId : String
  currentNodeId : String
  bookmarkedNodeIds : Option (List String)
deriving DecidableEq, Repr

/-- The `parsed.nodes.forEach` loop shared by `loadTree` (both branches)
and `importTree`: converts the array to a map, unconditionally clearing
`locked` and `lockReason` on every node. -/
def unlockNodesToMap (ns : List TreeNode) : NodeMap :=
  ns.foldl (fun m node => setNode m node.id { node with locked := false, lockReason := none }) []

/-- The localStorage branch of `loadTree` (`fileSystem.ts`), from the
point where the JSON has been parsed. -/
def loadTreeLocalStorage (parsed : PersistedTree) : Tree :=
  { id := parsed.id
    name := parsed.name
    nodes := unlockNodesToMap parsed.nodes
    rootId := parsed.rootId
    currentNodeId := parsed.currentNodeId
    bookmarkedNodeIds := parsed.bookmarkedNodeIds.getD [] }

/-- The Electron branch of `loadTree` (`fileSystem.ts`), from the point
where `tree.json` has been read and parsed; its node conversion loop is
textually identical to the localStorage branch's. -/
def loadTreeElectron (parsed : PersistedTree) : Tree :=
  { id := parsed.id
    name := parsed.name
    nodes := unlockNodesToMap parsed.nodes
    rootId := parsed.rootId
    currentNodeId := parsed.currentNodeId
    bookmarkedNodeIds := parsed.bookmarkedNodeIds.getD [] }

/-- `importTree` (`fileSystem.ts`), from the point where the chosen file
has been parsed: unlocks every node while building the map.  When a tree
of the same name already exists on disk the code only rewrites `id` and
`name` to a fresh `name_k`; that resolved id is passed in as `resolvedId`
(`none` when the name was free), since the existence probes belong to the
excluded persistence layer. -/
def importTree (parsed : PersistedTree) (resolvedId : Option String) : Tree :=
  { id := resolvedId.getD parsed.id
    name := resolvedId.getD parsed.name
    nodes := unlockNodesToMap parsed.nodes
    rootId := parsed.rootId
    currentNodeId := parsed.currentNodeId
    bookmarkedNodeIds := parsed.bookmarkedNodeIds.getD [] }

/-! ## Store mutation primitives that only the spec documents

The Zustand store module (`useStore`) is not part of the sources here;
only its callers are.  The primitives below are therefore modelled from
the specification's own descriptions and are marked as such. -/

/-- Modelled from the spec: the store's `setCurrentNode` is absent from
the sources; per the data model, `currentNodeId` is "the human cursor",
so setting the current node replaces that field. -/
def setCurrentNode (t : Tree) (i : String) : Tree :=
  { t with currentNodeId := i }

/-- The set of ids in the subtree under `i` (in depth-first order), used
to model recursive subtree deletion.  `fuel` bounds the recursion. -/
def subtreeIds (t : Tree) : Nat → String → List String
  | 0, i => [i]
  | fuel + 1, i =>
    match t.get i with
    | none => [i]
    | some nd => i :: (nd.childIds.map (fun c => subtreeIds t fuel c)).flatten

/-- Modelled from the spec: the store's `deleteNode` is absent from the
sources; per §4.1, `delete(nodeId)` "removes nodeId and its whole
subtree; fails if nodeId is the root", no surviving node's `childIds`
still references a removed node (§8), and the current-node pointer is
repaired to the nearest surviving ancestor when it pointed into the
removed subtree. -/
def deleteNode (t : Tree) (nodeId : String) : Tree :=
  if nodeId == t.rootId then t
  else
    match t.get nodeId with
    | none => t
    | some nd =>
      let removed := subtreeIds t (t.nodes.length + 1) nodeId
      let remaining := t.nodes.filterMap (fun pr =>
        if removed.contains pr.1 then none
        else some (pr.1, { pr.2 with childIds := pr.2.childIds.filter (fun c => !removed.contains c) }))
      let current' :=
        if removed.contains t.currentNodeId then nd.parentId.getD t.rootId
        else t.currentNodeId
      { t with nodes := remaining, currentNodeId := current' }

/-! ## `StatusRibbon.tsx`: the user cull command -/

/-- `handleCull` (`StatusRibbon.tsx`): no-op without a tree, or when the
current node is missing, is the root, or is locked; when the current node
has children it only moves the cursor to the first child; only when it is
a leaf is `deleteNode` invoked (the `captureDecision` training capture
does not touch the tree and is omitted).  The returned value is the
store's tree state afterwards. -/
def handleCull (currentTree : Option Tree) : Option Tree :=
  match currentTree with
  | none => none
  | some t =>
    match t.get t.currentNodeId with
    | none => some t
    | some currentNode =>
      if currentNode.id == t.rootId || currentNode.locked then some t
      else
        match currentNode.childIds with
        | c :: _ => some (setCurrentNode t c)
        | [] => some (deleteNode t currentNode.id)

/-! ## Mass merge (spec-modelled) -/

/-- Modelled from the spec: the store's `massMerge` (invoked by
`handleMass` in `StatusRibbon.tsx`) is absent from the sources; per §4.1
it "repeatedly merges every node that has exactly one child into that
child, until no such node remains".  `findSingleChildPair` locates the
first map entry with exactly one child, returning the pair of parent and
child ids. -/
def findSingleChildPair (t : Tree) : Option (String × String) :=
  match t.nodes.find? (fun pr => pr.2.childIds.length == 1) with
  | none => none
  | some pr =>
    match pr.2.childIds with
    | c :: _ => some (pr.1, c)
    | [] => none

/-- Modelled from the spec: one merge step of `massMerge` — the single
child `c` is absorbed into its parent `p`: the texts are concatenated,
`p` inherits `c`'s children (which are reparented to `p`), `c` is
removed, and the current-node pointer is repaired to `p` when it pointed
at the removed node. -/
def mergeInto (t : Tree) (p c : String) : Tree :=
  match t.get c with
  | none => t
  | some cn =>
    { t with
      nodes := t.nodes.filterMap (fun pr =>
        if pr.1 == c then none
        else if pr.1 == p then
          some (pr.1, { pr.2 with text := pr.2.text ++ cn.text, childIds := cn.childIds })
        else if cn.childIds.contains pr.1 then
          some (pr.1, { pr.2 with parentId := some p })
        else some pr)
      currentNodeId := if t.currentNodeId == c then p else t.currentNodeId }

/-- The merge-until-fixpoint loop of `massMerge`; `fuel` bounds the
number of iterations (each successful step removes one node, so the
initial node count suffices). -/
def massMergeAux : Nat → Tree → Tree
  | 0, t => t
  | fuel + 1, t =>
    match findSingleChildPair t with
    | none => t
    | some pc => massMergeAux fuel (mergeInto t pc.1 pc.2)

/-- Modelled from the spec: `massMerge` repeats the single-child merge
step until no node with exactly one child remains. -/
def massMerge (t : Tree) : Tree :=
  massMergeAux t.nodes.length t

/-! ## `Scout.tsx`: agent start/stop control flow -/

/-- The agent type of a `ScoutConfig`. -/
inductive AgentType where
  | scout
  | witness
  | campaign
  | trident
deriving DecidableEq, Repr

/-- The fields of `ScoutConfig` (`types.ts`) that the start/stop control
flow of `Scout.tsx` reads or writes; the purely presentational tuning
fields (vision, range, depth, shotgun, …) are immutable inputs to an
agent run and are not tracked here. -/
structure ScoutConfig where
  id : String
  type : AgentType
  active : Bool
  activeNodeId : Option String
deriving DecidableEq, Repr

/-- The state the `Scout.tsx` panel manipulates: the store's current
tree, the scout list, and the `activeScouts` map of cooperative stop
flags (`scoutId ↦ stopFlag.stop`). -/
structure ScoutPanelState where
  currentTree : Option Tree
  scouts : List ScoutConfig
  activeScouts : List (String × Bool)
deriving DecidableEq, Repr

/-- `Map.get` on the stop-flag map. -/
def lookupFlag (m : EntryMap Bool) (i : String) : Option Bool :=
  lookupEntry m i

/-- `Map.set` on the stop-flag map (replace in place or append). -/
def setFlag (m : EntryMap Bool) (i : String) (b : Bool) : EntryMap Bool :=
  setEntry m i b

/-- Modelled from the spec: the store's `updateScout` is absent from the
sources; it applies the given field updates to the scout with the given
id, here specialised to the `active`/`activeNodeId` updates the panel
performs. -/
def updateScoutActive (scouts : List ScoutConfig) (scoutId : String)
    (act : Bool) (anid : Option String) : List ScoutConfig :=
  scouts.map (fun s => if s.id == scoutId then { s with active := act, activeNodeId := anid } else s)

/-- What `startScout` did before handing over to an agent algorithm. -/
inductive StartResult where
  | noTree
  | noScout
  | blockedStart
  | launched (kind : AgentType)
deriving DecidableEq, Repr

/-- `startScout` (`Scout.tsx`) up to the invocation of the agent
algorithm: alerts and returns when there is no tree, when the scout id is
unknown, or when the tree's current node is missing or locked — in those
cases no stop flag is created, no scout is marked active, and the tree is
untouched.  Otherwise it creates the stop flag, marks the scout active on
the current node, and hands over to `runCampaign` / `runWitness` /
`runTrident` / `runScout` according to the scout's type (reported in the
`launched` result). -/
def startScout (st : ScoutPanelState) (scoutId : String) : ScoutPanelState × StartResult :=
  match st.currentTree with
  | none => (st, .noTree)
  | some t =>
    match st.scouts.find? (fun s => s.id == scoutId) with
    | none => (st, .noScout)
    | some scout =>
      match t.get t.currentNodeId with
      | none => (st, .blockedStart)
      | some currentNode =>
        if currentNode.locked then (st, .blockedStart)
        else
          ({ st with
              activeScouts := setFlag st.activeScouts scoutId false
              scouts := updateScoutActive st.scouts scoutId true (some t.currentNodeId) },
            .launched scout.type)

/-- `stopScout` (`Scout.tsx`): sets the scout's cooperative stop flag to
`true` when one exists (and never touches it otherwise), and clears the
scout's `active`/`activeNodeId` state. -/
def stopScout (st : ScoutPanelState) (scoutId : String) : ScoutPanelState :=
  let flags :=
    match lookupFlag st.activeScouts scoutId with
    | some _ => setFlag st.activeScouts scoutId true
    | none => st.activeScouts
  { st with
      activeScouts := flags
      scouts := updateScoutActive st.scouts scoutId false none }

/-! ## `withRetry` (`openrouter.ts`, both copies) -/

/-- The retry loop of `withRetry` (identical control flow in both copies
of `openrouter.ts`; the second adds terminal logging only).  The wrapped
async function is embedded as the sequence of outcomes `results` it would
produce on successive invocations; the returned `Nat` counts how many
times it was invoked.  `remaining` is `maxRetries - attempt`: on an error
with `remaining = 0` the loop exits and the last error is rethrown. -/
def withRetryGo {E A : Type} (results : Nat → Except E A) :
    Nat → Nat → Except E A × Nat
  | remaining, attempt =>
    match results attempt with
    | .ok v => (.ok v, 1)
    | .error e =>
      match remaining with
      | 0 => (.error e, 1)
      | r + 1 =>
        let rest := withRetryGo results r (attempt + 1)
        (rest.1, rest.2 + 1)

/-- `withRetry(fn, maxRetries = 3)`: runs the attempts starting at 0. -/
def withRetry {E A : Type} (results : Nat → Except E A) (maxRetries : Nat := 3) :
    Except E A × Nat :=
  withRetryGo results maxRetries 0

/-! ## Association-list (JS `Map`) lemmas -/

theorem lookupEntry_nil {β : Type} (i : String) : lookupEntry ([] : EntryMap β) i = none := rfl

theorem lookupEntry_cons {β : Type} (k : String) (v : β) (m : EntryMap β) (i : String) :
    lookupEntry ((k, v) :: m) i = if k == i then some v else lookupEntry m i := by
  simp only [lookupEntry, List.find?]
  cases h : (k == i) <;> simp [h]

theorem lookupEntry_append {β : Type} (m₁ m₂ : EntryMap β) (i : String) :
    lookupEntry (m₁ ++ m₂) i =
      (lookupEntry m₁ i).or (lookupEntry m₂ i) := by
  induction m₁ with
  | nil => simp [lookupEntry_nil]
  | cons p m₁ ih =>
    obtain ⟨k, v⟩ := p
    rw [List.cons_append, lookupEntry_cons, lookupEntry_cons]
    cases h : (k == i) <;> simp [ih]

theorem lookupEntry_eq_none_of_not_mem {β : Type} {m : EntryMap β} {i : String}
    (h : ∀ pr ∈ m, pr.1 ≠ i) : lookupEntry m i = none := by
  have hf : List.find? (fun pr => pr.1 == i) m = none :=
    List.find?_eq_none.mpr fun pr hm => by simp [h pr hm]
  simp [lookupEntry, hf]

theorem any_key_eq_false {β : Type} {m : EntryMap β} {i : String}
    (h : m.any (fun pr => pr.1 == i) = false) : ∀ pr ∈ m, pr.1 ≠ i := by
  intro pr hm hne
  have : m.any (fun pr => pr.1 == i) = true :=
    List.any_eq_true.mpr ⟨pr, hm, by simp [hne]⟩
  simp [this] at h

theorem lookupEntry_replace_ne {β : Type} (m : EntryMap β) (i j : String) (b : β)
    (h : i ≠ j) :
    lookupEntry (m.map (fun pr => if pr.1 == i then (i, b) else pr)) j = lookupEntry m j := by
  induction m with
  | nil => rfl
  | cons p m ih =>
    obtain ⟨k, v⟩ := p
    by_cases hk : k = i
    · subst hk
      rw [List.map_cons, if_pos (by simp), lookupEntry_cons, lookupEntry_cons]
      have hkj : (k == j) = false := by simpa using h
      rw [hkj, if_neg (by simp : ¬(false = true)), if_neg (by simp : ¬(false = true))]
      exact ih
    · rw [List.map_cons, if_neg (by simpa using hk), lookupEntry_cons, lookupEntry_cons, ih]

theorem lookupEntry_replace_self {β : Type} (m : EntryMap β) (i : String) (b : β)
    (h : m.any (fun pr => pr.1 == i) = true) :
    lookupEntry (m.map (fun pr => if pr.1 == i then (i, b) else pr)) i = some b := by
  induction m with
  | nil => simp at h
  | cons p m ih =>
    obtain ⟨k, v⟩ := p
    by_cases hk : k = i
    · subst hk
      rw [List.map_cons, if_pos (by simp), lookupEntry_cons]
      simp
    · have h' : m.any (fun pr => pr.1 == i) = true := by
        rcases List.any_eq_true.mp h with ⟨pr, hpr, hpri⟩
        rcases List.mem_cons.mp hpr with hpr | hpr
        · subst hpr; simp [hk] at hpri
        · exact List.any_eq_true.mpr ⟨pr, hpr, hpri⟩
      rw [List.map_cons, if_neg (by simpa using hk), lookupEntry_cons]
      have hkb : (k == i) = false := by simpa using hk
      rw [hkb, if_neg (by simp : ¬(false = true))]
      exact ih h'

/-- The fundamental `Map.set`/`Map.get` interaction. -/
theorem lookupEntry_setEntry {β : Type} (m : EntryMap β) (i : String) (b : β) (j : String) :
    lookupEntry (setEntry m i b) j = if i = j then some b else lookupEntry m j := by
  unfold setEntry
  cases hmem : m.any (fun pr => pr.1 == i)
  · rw [if_neg (by simp [hmem])]
    rw [lookupEntry_append]
    by_cases hij : i = j
    · subst hij
      rw [lookupEntry_eq_none_of_not_mem (any_key_eq_false hmem), lookupEntry_cons]
      simp
    · rw [if_neg hij]
      have : (i == j) = false := by simpa using hij
      simp [lookupEntry_cons, this, lookupEntry_nil]
  · rw [if_pos (by simp [hmem])]
    by_cases hij : i = j
    · subst hij
      rw [if_pos rfl]
      exact lookupEntry_replace_self m i b hmem
    · rw [if_neg hij]
      exact lookupEntry_replace_ne m i j b hij

/-- `Map.set` preserves the key list when the key is present, and appends
the key otherwise. -/
theorem keys_setEntry {β : Type} (m : EntryMap β) (i : String) (b : β) :
    (setEntry m i b).map Prod.fst =
      if m.any (fun pr => pr.1 == i) then m.map Prod.fst else m.map Prod.fst ++ [i] := by
  unfold setEntry
  cases hmem : m.any (fun pr => pr.1 == i)
  · simp
  · rw [if_pos rfl, if_pos rfl, List.map_map]
    refine List.map_congr_left fun pr _ => ?_
    by_cases hk : pr.1 = i
    · simp [Function.comp, hk]
    · simp [Function.comp, hk]

theorem keysNodup_setEntry {β : Type} {m : EntryMap β} (i : String) (b : β)
    (h : (m.map Prod.fst).Nodup) : ((setEntry m i b).map Prod.fst).Nodup := by
  rw [keys_setEntry]
  cases hmem : m.any (fun pr => pr.1 == i)
  · rw [if_neg (by simp)]
    have hnot : i ∉ m.map Prod.fst := by
      intro hmm
      rcases List.mem_map.mp hmm with ⟨pr, hpr, hfst⟩
      exact any_key_eq_false hmem pr hpr hfst
    simp [List.nodup_append, h, hnot]
  · rw [if_pos rfl]; exact h

theorem mem_of_lookupEntry_eq_some {β : Type} {m : EntryMap β} {i : String} {v : β}
    (h : lookupEntry m i = some v) : (i, v) ∈ m := by
  unfold lookupEntry at h
  cases hfind : List.find? (fun pr => pr.1 == i) m with
  | none => rw [hfind] at h; simp at h
  | some pr =>
    rw [hfind] at h
    replace h : some pr.2 = some v := h
    replace h : pr.2 = v := Option.some.inj h
    have hmem := List.mem_of_find?_eq_some hfind
    have hkey := List.find?_some hfind
    simp only [beq_iff_eq] at hkey
    have hpr : pr = (i, v) := by
      obtain ⟨a, c⟩ := pr
      simp only [Prod.mk.injEq]
      exact ⟨hkey, h⟩
    rwa [hpr] at hmem

theorem lookupEntry_eq_some_of_mem {β : Type} {m : EntryMap β}
    (hnd : (m.map Prod.fst).Nodup) {i : String} {v : β}
    (h : (i, v) ∈ m) : lookupEntry m i = some v := by
  induction m with
  | nil => simp at h
  | cons p m ih =>
    obtain ⟨k, w⟩ := p
    rw [lookupEntry_cons]
    rcases List.mem_cons.mp h with h | h
    · obtain ⟨hk, hv⟩ := Prod.mk.injEq .. ▸ h.symm
      rw [hk, hv]
      simp
    · by_cases hk : k = i
      · subst hk
        exfalso
        have : k ∈ m.map Prod.fst := List.mem_map.mpr ⟨(k, v), h, rfl⟩
        simp only [List.map_cons, List.nodup_cons] at hnd
        exact hnd.1 this
      · have hkb : (k == i) = false := by simpa using hk
        rw [hkb, if_neg (by simp : ¬(false = true))]
        rw [List.map_cons] at hnd
        exact ih hnd.of_cons h

theorem lookupEntry_isSome_of_mem {β : Type} {m : EntryMap β} {i : String} {v : β}
    (h : (i, v) ∈ m) : ∃ w, lookupEntry m i = some w := by
  induction m with
  | nil => simp at h
  | cons p m ih =>
    obtain ⟨k, w⟩ := p
    rw [lookupEntry_cons]
    rcases List.mem_cons.mp h with h | h
    · obtain ⟨hk, _⟩ := Prod.mk.injEq .. ▸ h.symm
      rw [hk]
      simp
    · by_cases hk : k = i
      · exact ⟨w, by simp [hk]⟩
      · have hkb : (k == i) = false := by simpa using hk
        rw [hkb]
        simpa using ih h

/-! ## Tree paths: uniqueness, freedom from cycles, length bounds -/

theorem get_mem_nodes {t : Tree} {i : String} {nd : TreeNode}
    (h : t.get i = some nd) : (i, nd) ∈ t.nodes :=
  mem_of_lookupEntry_eq_some h

theorem ValidTree.get_of_mem {t : Tree} (hv : ValidTree t) {i : String} {nd : TreeNode}
    (h : (i, nd) ∈ t.nodes) : t.get i = some nd :=
  lookupEntry_eq_some_of_mem hv.keysNodup h

theorem ValidTree.childLink {t : Tree} (hv : ValidTree t) {i : String} {nd : TreeNode}
    (h : t.get i = some nd) {c : String} (hc : c ∈ nd.childIds) :
    ∃ cn, t.get c = some cn ∧ cn.parentId = some i :=
  hv.childOk (i, nd) (get_mem_nodes h) c hc

theorem ValidTree.idEq {t : Tree} (hv : ValidTree t) {i : String} {nd : TreeNode}
    (h : t.get i = some nd) : nd.id = i :=
  hv.keyMatch (i, nd) (get_mem_nodes h)

/-- The root is nobody's child: its stored parent is null while a child's
stored parent is its parent. -/
theorem not_desc_root {t : Tree} (hv : ValidTree t) (p : String) : ¬ Desc t p t.rootId := by
  rintro ⟨nd, hget, hmem⟩
  obtain ⟨cn, hcn, hpar⟩ := hv.childLink hget hmem
  obtain ⟨rn, hrn, hrp⟩ := hv.rootMem
  rw [hcn] at hrn
  cases hrn
  rw [hpar] at hrp
  cases hrp

/-- Each node is the child of at most one parent. -/
theorem desc_parent_unique {t : Tree} (hv : ValidTree t) {p q c : String}
    (h1 : Desc t p c) (h2 : Desc t q c) : p = q := by
  obtain ⟨nd1, hg1, hm1⟩ := h1
  obtain ⟨nd2, hg2, hm2⟩ := h2
  obtain ⟨cn1, hc1, hp1⟩ := hv.childLink hg1 hm1
  obtain ⟨cn2, hc2, hp2⟩ := hv.childLink hg2 hm2
  rw [hc1] at hc2
  cases hc2
  rw [hp1] at hp2
  exact Option.some.inj hp2

/-- The endpoint of a root path is stored in the node map. -/
theorem rpath_get_some {t : Tree} (hv : ValidTree t) {i : String} {l : List String}
    (h : RPath t i l) : ∃ nd, t.get i = some nd := by
  cases h with
  | root => exact ⟨_, hv.rootMem.choose_spec.1⟩
  | step hp hd =>
    obtain ⟨nd, hget, hmem⟩ := hd
    obtain ⟨cn, hc, _⟩ := hv.childLink hget hmem
    exact ⟨cn, hc⟩

/-- Root paths are unique: the path to a node is determined by the chain
of parent pointers. -/
theorem rpath_unique {t : Tree} (hv : ValidTree t) {i : String} {l1 : List String}
    (h1 : RPath t i l1) : ∀ l2, RPath t i l2 → l1 = l2 := by
  induction h1 with
  | root =>
    intro l2 h2
    cases h2 with
    | root => rfl
    | step hp hd => exact absurd hd (not_desc_root hv _)
  | step hp hd ih =>
    intro l2 h2
    cases h2 with
    | root => exact absurd hd (not_desc_root hv _)
    | step hq he =>
      have hpq := desc_parent_unique hv he hd
      subst hpq
      rw [ih _ hq]

/-- Every member of a root path has its own root path, a prefix of the
original. -/
theorem rpath_mem_split {t : Tree} {i : String} {l : List String}
    (h : RPath t i l) : ∀ x ∈ l, ∃ l1 l2, l = l1 ++ l2 ∧ RPath t x l1 := by
  induction h with
  | root =>
    intro x hx
    rcases List.mem_singleton.mp hx with rfl
    exact ⟨[t.rootId], [], rfl, RPath.root⟩
  | @step p l c hp hd ih =>
    intro x hx
    rcases List.mem_append.mp hx with hx | hx
    · obtain ⟨l1, l2, happ, hpx⟩ := ih x hx
      exact ⟨l1, l2 ++ [c], by rw [happ, List.append_assoc], hpx⟩
    · rcases List.mem_singleton.mp hx with rfl
      exact ⟨l ++ [x], [], by simp, RPath.step hp hd⟩

/-- Root paths visit no node twice. -/
theorem rpath_nodup {t : Tree} (hv : ValidTree t) {i : String} {l : List String}
    (h : RPath t i l) : l.Nodup := by
  induction h with
  | root => simp
  | @step p l c hp hd ih =>
    refine List.Nodup.append ih (List.nodup_singleton c) ?_
    intro x hx hx'
    rcases List.mem_singleton.mp hx' with rfl
    obtain ⟨l1, l2, happ, hcx⟩ := rpath_mem_split hp x hx
    have heq : l1 = l ++ [x] := rpath_unique hv hcx _ (RPath.step hp hd)
    have hlen1 : l1.length ≤ l.length := by
      have := congrArg List.length happ
      simp only [List.length_append] at this
      omega
    rw [heq] at hlen1
    simp at hlen1

/-- A root path is no longer than the node map. -/
theorem rpath_length_le {t : Tree} (hv : ValidTree t) {i : String} {l : List String}
    (h : RPath t i l) : l.length ≤ t.nodes.length := by
  have hnd := rpath_nodup hv h
  have hsub : l ⊆ t.nodes.map Prod.fst := by
    intro x hx
    obtain ⟨l1, l2, happ, hx1⟩ := rpath_mem_split h x hx
    obtain ⟨nd, hget⟩ := rpath_get_some hv hx1
    exact List.mem_map.mpr ⟨(x, nd), get_mem_nodes hget, rfl⟩
  calc l.length ≤ (t.nodes.map Prod.fst).length := (hnd.subperm hsub).length_le
    _ = t.nodes.length := List.length_map _ _

/-! ## Subtree membership (`DescStar`) -/

theorem descStar_trans {t : Tree} {x j k : String}
    (h1 : DescStar t x j) (h2 : DescStar t j k) : DescStar t x k := by
  induction h2 with
  | refl => exact h1
  | tail hst hd ih => exact DescStar.tail ih hd

theorem descStar_get_some {t : Tree} (hv : ValidTree t) {x k : String}
    (hx : ∃ nd, t.get x = some nd) (h : DescStar t x k) : ∃ nd, t.get k = some nd := by
  induction h with
  | refl => exact hx
  | tail hst hd ih =>
    obtain ⟨nd, hget, hmem⟩ := hd
    obtain ⟨cn, hc, _⟩ := hv.childLink hget hmem
    exact ⟨cn, hc⟩

/-- A member of the subtree of `x` has a root path extending `x`'s. -/
theorem descStar_rpath {t : Tree} {x : String} {lx : List String}
    (hx : RPath t x lx) {k : String} (h : DescStar t x k) :
    ∃ d, RPath t k (lx ++ d) := by
  induction h with
  | refl => exact ⟨[], by simpa using hx⟩
  | @tail j k hst hd ih =>
    obtain ⟨d, hp⟩ := ih
    exact ⟨d ++ [k], by rw [← List.append_assoc]; exact RPath.step hp hd⟩

/-- Descending from inside the subtree of a reachable `x` never returns
to `x` itself. -/
theorem desc_ne_start {t : Tree} (hv : ValidTree t) {x : String} {lx : List String}
    (hx : RPath t x lx) {j k : String} (hst : DescStar t x j) (hd : Desc t j k) : k ≠ x := by
  rintro rfl
  obtain ⟨d, hp⟩ := descStar_rpath hx hst
  have hstep : RPath t k ((lx ++ d) ++ [k]) := RPath.step hp hd
  have := rpath_unique hv hx _ hstep
  have hlen := congrArg List.length this
  simp only [List.length_append, List.length_singleton] at hlen
  omega

/-- Front decomposition of subtree membership. -/
theorem descStar_cases_front {t : Tree} {x k : String} (h : DescStar t x k) :
    k = x ∨ ∃ c, Desc t x c ∧ DescStar t c k := by
  induction h with
  | refl => exact Or.inl rfl
  | @tail j k hst hd ih =>
    rcases ih with rfl | ⟨c, hxc, hcj⟩
    · exact Or.inr ⟨k, hd, DescStar.refl⟩
    · exact Or.inr ⟨c, hxc, DescStar.tail hcj hd⟩

/-- Back decomposition of subtree membership. -/
theorem descStar_cases_back {t : Tree} {x k : String} (h : DescStar t x k) :
    k = x ∨ ∃ j, DescStar t x j ∧ Desc t j k := by
  cases h with
  | refl => exact Or.inl rfl
  | tail hst hd => exact Or.inr ⟨_, hst, hd⟩

/-! ## The `extractSubtree` copy loop -/

/-- A copy of `nd` with fresh ownership: unlocked, no lock reason, no
expansion history. -/
def unlockedCopy (nd : TreeNode) : TreeNode :=
  { nd with locked := false, lockReason := none, everExpanded := none }

theorem withParentId_self (nd : TreeNode) (p : Option String) (h : nd.parentId = p) :
    { nd with parentId := p } = nd := by
  cases nd
  cases h
  rfl

/-- What `copyNode` does to the accumulated map, for a reachable start
node and sufficient fuel: it returns the start node's id, writes an
unlocked copy of every node in the subtree (the start node reparented to
`newParentId`, all others keeping their stored parent), leaves every
other key untouched, and preserves key uniqueness. -/
theorem copyNode_spec {t : Tree} (hv : ValidTree t) :
    ∀ fuel x lx np acc,
      RPath t x lx →
      (∀ k lk, DescStar t x k → RPath t k lk → lk.length < lx.length + fuel) →
      (copyNode t fuel x np acc).2 = x
      ∧ (∀ k nd, t.get k = some nd → DescStar t x k →
          lookupNode (copyNode t fuel x np acc).1 k =
            some (if k = x then { unlockedCopy nd with parentId := np } else unlockedCopy nd))
      ∧ (∀ k, ¬ DescStar t x k →
          lookupNode (copyNode t fuel x np acc).1 k = lookupNode acc k)
      ∧ (((acc.map Prod.fst).Nodup) → (((copyNode t fuel x np acc).1.map Prod.fst).Nodup)) := by
  intro fuel
  induction fuel with
  | zero =>
    intro x lx np acc hx hbound
    exact absurd (hbound x lx DescStar.refl hx) (by omega)
  | succ fuel ih =>
    intro x lx np acc hx hbound
    obtain ⟨nd, hget⟩ := rpath_get_some hv hx
    have hid : nd.id = x := hv.idEq hget
    -- Specification of the sequential child-copy loop.
    have hchild : ∀ cs, (∀ c ∈ cs, Desc t x c) → ∀ acc',
        (copyChildrenWith (fun c np a => copyNode t fuel c np a) cs x acc').2 = cs
        ∧ (∀ k nd', t.get k = some nd' → (∃ c ∈ cs, DescStar t c k) →
            lookupNode (copyChildrenWith (fun c np a => copyNode t fuel c np a) cs x acc').1 k =
              some (unlockedCopy nd'))
        ∧ (∀ k, (∀ c ∈ cs, ¬ DescStar t c k) →
            lookupNode (copyChildrenWith (fun c np a => copyNode t fuel c np a) cs x acc').1 k =
              lookupNode acc' k)
        ∧ (((acc'.map Prod.fst).Nodup) →
            (((copyChildrenWith (fun c np a => copyNode t fuel c np a) cs x acc').1.map
              Prod.fst).Nodup)) := by
      intro cs
      induction cs with
      | nil =>
        intro _ acc'
        refine ⟨rfl, ?_, fun k _ => rfl, fun h => h⟩
        rintro k nd' _ ⟨c, hc, _⟩
        simp at hc
      | cons c cs ihcs =>
        intro hcs acc'
        have hdc : Desc t x c := hcs c (List.mem_cons_self c cs)
        have hxc : RPath t c (lx ++ [c]) := RPath.step hx hdc
        have hboundc : ∀ k lk, DescStar t c k → RPath t k lk →
            lk.length < (lx ++ [c]).length + fuel := by
          intro k lk hdk hlk
          have hxk : DescStar t x k := descStar_trans (DescStar.tail DescStar.refl hdc) hdk
          have := hbound k lk hxk hlk
          simp only [List.length_append, List.length_singleton]
          omega
        obtain ⟨hret1, hdesc1, hpres1, hnd1⟩ := ih c (lx ++ [c]) (some x) acc' hxc hboundc
        -- a node inside `c`'s subtree always receives the uniform unlocked copy
        have hcval : ∀ k nd', t.get k = some nd' → DescStar t c k →
            lookupNode (copyNode t fuel c (some x) acc').1 k = some (unlockedCopy nd') := by
          intro k nd' hk hdk
          rw [hdesc1 k nd' hk hdk]
          by_cases hkc : k = c
          · subst hkc
            obtain ⟨nd0, hg0, hm0⟩ := hdc
            obtain ⟨cn, hgc, hpc⟩ := hv.childLink hg0 hm0
            rw [hk] at hgc
            cases hgc
            have : (unlockedCopy nd').parentId = some x := by
              simpa [unlockedCopy] using hpc
            rw [if_pos rfl, withParentId_self _ _ this]
          · rw [if_neg hkc]
        obtain ⟨hret2, hdesc2, hpres2, hnd2⟩ :=
          ihcs (fun c' hc' => hcs c' (List.mem_cons_of_mem c hc')) (copyNode t fuel c (some x) acc').1
        refine ⟨?_, ?_, ?_, ?_⟩
        · simp only [copyChildrenWith]
          rw [hret2, hret1]
        · rintro k nd' hk ⟨c', hc', hdk⟩
          simp only [copyChildrenWith]
          rcases List.mem_cons.mp hc' with rfl | hc'
          · by_cases hrest : ∃ c'' ∈ cs, DescStar t c'' k
            · exact hdesc2 k nd' hk hrest
            · push_neg at hrest
              rw [hpres2 k hrest]
              exact hcval k nd' hk hdk
          · exact hdesc2 k nd' hk ⟨c', hc', hdk⟩
        · intro k hnone
          simp only [copyChildrenWith]
          rw [hpres2 k (fun c' hc' => hnone c' (List.mem_cons_of_mem c hc'))]
          exact hpres1 k (hnone c (List.mem_cons_self c cs))
        · intro hnd
          simp only [copyChildrenWith]
          exact hnd2 (hnd1 hnd)
    have hcs : ∀ c ∈ nd.childIds, Desc t x c := fun c hc => ⟨nd, hget, hc⟩
    -- any node strictly below x (in some child's subtree) differs from x
    have hbelow_ne : ∀ c k, Desc t x c → DescStar t c k → k ≠ x := by
      intro c k hxc hck
      rcases descStar_cases_back hck with rfl | ⟨j, hcj, hjk⟩
      · exact desc_ne_start hv hx DescStar.refl hxc
      · exact desc_ne_start hv hx
          (descStar_trans (DescStar.tail DescStar.refl hxc) hcj) hjk
    -- unfold one step of copyNode
    simp only [copyNode, hget]
    rw [hid]
    obtain ⟨hret, hdescC, hpresC, hndC⟩ := hchild nd.childIds hcs (setNode acc x
      { id := x, text := nd.text, parentId := np, childIds := [], locked := false })
    simp only [lookupNode, setNode] at hret hdescC hpresC hndC ⊢
    refine ⟨trivial, ?_, ?_, ?_⟩
    · intro k nd' hk hdk
      rcases descStar_cases_front hdk with hkx0 | ⟨c, hxc, hck⟩
      · -- k = x: the final `set` stores the finished node
        subst hkx0
        rw [hget] at hk
        cases hk
        rw [if_pos rfl, lookupEntry_setEntry, if_pos rfl, hret]
        cases nd
        simp only [unlockedCopy] at hid ⊢
        simp [hid]
      · -- k strictly below x: written by the child loop, not overwritten
        have hkx : k ≠ x := hbelow_ne c k hxc hck
        rw [if_neg hkx, lookupEntry_setEntry, if_neg (fun h => hkx h.symm)]
        obtain ⟨nd0, hg0, hm0⟩ := hxc
        rw [hget] at hg0
        cases hg0
        exact hdescC k nd' hk ⟨c, hm0, hck⟩
    · intro k hnk
      have hkx : k ≠ x := fun h => hnk (h ▸ DescStar.refl)
      rw [lookupEntry_setEntry, if_neg (fun h => hkx h.symm)]
      rw [hpresC k (fun c hc hck => hnk
        (descStar_trans (DescStar.tail DescStar.refl (hcs c hc)) hck))]
      rw [lookupEntry_setEntry, if_neg (fun h => hkx h.symm)]
    · intro hnd
      exact keysNodup_setEntry _ _ (hndC (keysNodup_setEntry _ _ hnd))

theorem rpath_length_pos {t : Tree} {i : String} {l : List String}
    (h : RPath t i l) : 0 < l.length := by
  cases h with
  | root => simp
  | step hp hd => simp

/-- The nodes of an extracted subtree are exactly the unlocked copies of
the source subtree's nodes, and the extracted tree satisfies the full
validity invariant with the extraction node as root and current node. -/
theorem extractSubtree_valid {t : Tree} (hv : ValidTree t) {n : String} {nd0 : TreeNode}
    (hget : t.get n = some nd0) (name : String) :
    ∃ r, extractSubtree t n name = some r ∧ ValidTree r ∧ r.rootId = n ∧
      r.currentNodeId = r.rootId ∧ ∃ rn, r.get n = some rn ∧ rn.parentId = none := by
  obtain ⟨lx, hx⟩ := hv.reachAll (n, nd0) (get_mem_nodes hget)
  have hxpos := rpath_length_pos hx
  have hbound : ∀ k lk, DescStar t n k → RPath t k lk →
      lk.length < lx.length + (t.nodes.length + 1) := by
    intro k lk _ hlk
    have := rpath_length_le hv hlk
    omega
  obtain ⟨hret, hdesc, hpres, hndk⟩ :=
    copyNode_spec hv (t.nodes.length + 1) n lx none [] hx hbound
  set M := (copyNode t (t.nodes.length + 1) n none []).1 with hM
  have hMnodup : (M.map Prod.fst).Nodup := hndk (by simp)
  -- keys of M are exactly the subtree below n
  have hlook_none : ∀ k, ¬ DescStar t n k → lookupNode M k = none := by
    intro k h
    rw [hpres k h]
    rfl
  have hmemM : ∀ pr ∈ M, DescStar t n pr.1 := by
    intro pr hpr
    by_contra h
    have h1 : lookupEntry M pr.1 = some pr.2 := lookupEntry_eq_some_of_mem hMnodup hpr
    have h2 := hlook_none pr.1 h
    rw [lookupNode] at h2
    rw [h1] at h2
    cases h2
  have hvalM : ∀ pr ∈ M, ∃ ndk, t.get pr.1 = some ndk ∧
      pr.2 = (if pr.1 = n then { unlockedCopy ndk with parentId := none }
        else unlockedCopy ndk) := by
    intro pr hpr
    have hds := hmemM pr hpr
    obtain ⟨ndk, hgk⟩ := descStar_get_some hv ⟨nd0, hget⟩ hds
    refine ⟨ndk, hgk, ?_⟩
    have h1 : lookupEntry M pr.1 = some pr.2 := lookupEntry_eq_some_of_mem hMnodup hpr
    have h2 := hdesc pr.1 ndk hgk hds
    rw [lookupNode] at h2
    rw [h1] at h2
    exact Option.some.inj h2
  refine ⟨({ id := jsTrim name, name := name, nodes := M, rootId := n, currentNodeId := n, bookmarkedNodeIds := [] } : Tree), ?_, ?_, rfl, rfl, ?_⟩
  · simp only [extractSubtree, hget, hM]
    rw [hret]
  · -- validity of the extracted tree
    set r : Tree := { id := jsTrim name, name := name, nodes := M, rootId := n, currentNodeId := n, bookmarkedNodeIds := [] } with hr
    have hrget : ∀ k, r.get k = lookupNode M k := fun k => rfl
    -- lookups inside the copy
    have hgetCopy : ∀ k, DescStar t n k → ∀ ndk, t.get k = some ndk →
        r.get k = some (if k = n then { unlockedCopy ndk with parentId := none }
          else unlockedCopy ndk) := by
      intro k hds ndk hgk
      rw [hrget]
      exact hdesc k ndk hgk hds
    refine ⟨hMnodup, ?_, ?_, ?_, ?_, ?_, ?_⟩
    · -- keyMatch
      intro pr hpr
      obtain ⟨ndk, hgk, hval⟩ := hvalM pr hpr
      have hidk := hv.idEq hgk
      rw [hval]
      by_cases h : pr.1 = n <;> simp [h, unlockedCopy, hidk]
    · -- rootMem
      refine ⟨{ unlockedCopy nd0 with parentId := none }, ?_, rfl⟩
      have := hgetCopy n DescStar.refl nd0 hget
      simpa using this
    · -- childOk
      intro pr hpr c hc
      obtain ⟨ndk, hgk, hval⟩ := hvalM pr hpr
      have hcIds : pr.2.childIds = ndk.childIds := by
        rw [hval]
        by_cases h : pr.1 = n <;> simp [h, unlockedCopy]
      rw [hcIds] at hc
      obtain ⟨cn, hgc, hpc⟩ := hv.childLink hgk hc
      have hdc : Desc t pr.1 c := ⟨ndk, hgk, hc⟩
      have hdsc : DescStar t n c := DescStar.tail (hmemM pr hpr) hdc
      have hcn : c ≠ n := desc_ne_start hv hx (hmemM pr hpr) hdc
      refine ⟨unlockedCopy cn, ?_, ?_⟩
      · have := hgetCopy c hdsc cn hgc
        rwa [if_neg hcn] at this
      · simpa [unlockedCopy] using hpc
    · -- parentOk
      intro pr hpr hne
      obtain ⟨ndk, hgk, hval⟩ := hvalM pr hpr
      have hds := hmemM pr hpr
      rcases descStar_cases_back hds with h | ⟨j, hnj, hjk⟩
      · exact absurd h hne
      · obtain ⟨ndj, hgj, hmj⟩ := hjk
        obtain ⟨cn, hgc, hpc⟩ := hv.childLink hgj hmj
        rw [hgk] at hgc
        cases hgc
        refine ⟨j, (if j = n then { unlockedCopy ndj with parentId := none }
          else unlockedCopy ndj), ?_, ?_, ?_⟩
        · rw [hval, if_neg hne]
          simpa [unlockedCopy] using hpc
        · exact hgetCopy j hnj ndj hgj
        · by_cases h : j = n <;> simp [h, unlockedCopy, hmj]
    · -- childNodup
      intro pr hpr
      obtain ⟨ndk, hgk, hval⟩ := hvalM pr hpr
      have := hv.childNodup (pr.1, ndk) (get_mem_nodes hgk)
      rw [hval]
      by_cases h : pr.1 = n <;> simpa [h, unlockedCopy] using this
    · -- reachAll: every key of M is reachable from the new root n
      have hreach : ∀ k, DescStar t n k → Reach r k := by
        intro k hds
        induction hds with
        | refl => exact ⟨[n], RPath.root⟩
        | @tail j k hnj hjk ihr =>
          obtain ⟨lj, hpj⟩ := ihr
          obtain ⟨ndj, hgj, hmj⟩ := hjk
          have hdsj : DescStar t n j := hnj
          refine ⟨lj ++ [k], RPath.step hpj ?_⟩
          refine ⟨(if j = n then { unlockedCopy ndj with parentId := none }
            else unlockedCopy ndj), hgetCopy j hdsj ndj hgj, ?_⟩
          by_cases h : j = n <;> simp [h, unlockedCopy, hmj]
      intro pr hpr
      exact hreach pr.1 (hmemM pr hpr)
  · refine ⟨{ unlockedCopy nd0 with parentId := none }, ?_, rfl⟩
    have := hdesc n nd0 hget DescStar.refl
    rw [lookupNode] at this
    show lookupEntry M n = _
    rw [this]
    simp

/-- `createNewTree` produces a single-root valid tree with the cursor at
the root. -/
theorem createNewTree_valid (name rootId : String) :
    ValidTree (createNewTree name rootId) ∧
      (createNewTree name rootId).currentNodeId = (createNewTree name rootId).rootId := by
  refine ⟨⟨?_, ?_, ?_, ?_, ?_, ?_, ?_⟩, rfl⟩
  · simp [createNewTree]
  · intro pr hpr
    simp only [createNewTree, List.mem_singleton] at hpr
    subst hpr
    rfl
  · refine ⟨({ id := rootId, text := "", parentId := none, childIds := [], locked := false } : TreeNode), ?_, rfl⟩
    show lookupEntry [(rootId, _)] rootId = _
    rw [lookupEntry_cons]
    simp
  · intro pr hpr c hc
    simp only [createNewTree, List.mem_singleton] at hpr
    subst hpr
    simp at hc
  · intro pr hpr hne
    simp only [createNewTree, List.mem_singleton] at hpr
    subst hpr
    simp [createNewTree] at hne
  · intro pr hpr
    simp only [createNewTree, List.mem_singleton] at hpr
    subst hpr
    simp
  · intro pr hpr
    simp only [createNewTree, List.mem_singleton] at hpr
    subst hpr
    exact ⟨[rootId], RPath.root⟩

/-! ## Branch text and start position -/

/-- The `text` stored at a node id (empty for a missing id). -/
def textOf (t : Tree) (i : String) : String :=
  ((t.get i).map (fun nd => nd.text)).getD ""

theorem collectToRoot_none (t : Tree) : ∀ fuel acc, collectToRoot t fuel none acc = acc := by
  intro fuel acc
  cases fuel <;> rfl

theorem rpath_concat {t : Tree} {i : String} {l : List String} (h : RPath t i l) :
    ∃ l', l = l' ++ [i] := by
  cases h with
  | root => exact ⟨[], rfl⟩
  | step hp hd => exact ⟨_, rfl⟩

/-- The upward `while` walk recovers exactly the nodes of the root path,
in root-to-node order, whenever the fuel covers the path length. -/
theorem collectToRoot_spec {t : Tree} (hv : ValidTree t) {i : String} {l : List String}
    (h : RPath t i l) :
    ∀ fuel acc, l.length ≤ fuel →
      ∃ nds, List.Forall₂ (fun j nd => t.get j = some nd) l nds ∧
        collectToRoot t fuel (some i) acc = nds ++ acc := by
  induction h with
  | root =>
    intro fuel acc hf
    obtain ⟨rn, hrn, hrp⟩ := hv.rootMem
    cases fuel with
    | zero => simp at hf
    | succ f =>
      refine ⟨[rn], List.forall₂_cons.mpr ⟨hrn, List.Forall₂.nil⟩, ?_⟩
      show collectToRoot t (f + 1) (some t.rootId) acc = [rn] ++ acc
      simp only [collectToRoot, hrn, hrp, collectToRoot_none]
      rfl
  | @step p l c hp hd ih =>
    intro fuel acc hf
    obtain ⟨ndp, hgp, hmp⟩ := hd
    obtain ⟨cn, hgc, hpc⟩ := hv.childLink hgp hmp
    cases fuel with
    | zero => simp at hf
    | succ f =>
      have hf' : l.length ≤ f := by
        simp only [List.length_append, List.length_singleton] at hf
        omega
      obtain ⟨nds, hfa, hcol⟩ := ih f (cn :: acc) hf'
      refine ⟨nds ++ [cn], ?_, ?_⟩
      · exact List.rel_append hfa (List.forall₂_cons.mpr ⟨hgc, List.Forall₂.nil⟩)
      · show collectToRoot t (f + 1) (some c) acc = (nds ++ [cn]) ++ acc
        simp only [collectToRoot, hgc, hpc]
        rw [hcol, List.append_assoc]
        rfl

theorem forall₂_get_map_text {t : Tree} {l : List String} {nds : List TreeNode}
    (h : List.Forall₂ (fun j nd => t.get j = some nd) l nds) :
    nds.map (fun nd => nd.text) = l.map (textOf t) := by
  induction h with
  | nil => rfl
  | cons hr hrest ih =>
    simp only [List.map_cons, ih, List.cons.injEq, and_true]
    simp [textOf, hr]

theorem length_join_strings : ∀ (L : List String),
    (String.join L).length = (L.map String.length).sum := by
  have haux : ∀ (L : List String) (s : String),
      (List.foldl (fun r s => r ++ s) s L).length = s.length + (L.map String.length).sum := by
    intro L
    induction L with
    | nil => intro s; simp
    | cons a L ih =>
      intro s
      simp only [List.foldl_cons, ih, List.map_cons, List.sum_cons, String.length_append]
      omega
  intro L
  have := haux L ""
  simpa [String.join] using this

theorem map_dropLast' {α β : Type} (f : α → β) :
    ∀ l : List α, (l.map f).dropLast = l.dropLast.map f := by
  intro l
  induction l with
  | nil => rfl
  | cons a l ih =>
    cases l with
    | nil => rfl
    | cons b l =>
      simp only [List.map_cons, List.dropLast_cons₂] at ih ⊢
      rw [← List.map_cons f b l] at ih ⊢
      rw [ih]

/-- C3: for every valid tree and every node reachable from the root
(witnessed by its root path `l`), `getBranchText` returns the
concatenation of the `text` fields of the nodes along the path from the
root down to the node, in root-to-node order. -/
theorem getBranchText_path_concat :
    ∀ (t : Tree) (n : String) (l : List String), ValidTree t → RPath t n l →
      getBranchText t n = String.join (l.map (textOf t)) := by
  intro t n l hv h
  have hlen : l.length ≤ t.nodes.length + 1 :=
    le_trans (rpath_length_le hv h) (Nat.le_succ _)
  obtain ⟨nds, hfa, hcol⟩ := collectToRoot_spec hv h (t.nodes.length + 1) [] hlen
  rw [getBranchText, hcol, List.append_nil]
  rw [forall₂_get_map_text hfa]

/-- C9: for every valid tree and every node reachable from the root
(witnessed by its root path `l`), `getCurrentNodeStartPosition` equals
the total length of the texts of the node's strict ancestors, and adding
the node's own text length gives the length of `getBranchText`. -/
theorem getCurrentNodeStartPosition_ancestors :
    ∀ (t : Tree) (n : String) (l : List String), ValidTree t → RPath t n l →
      getCurrentNodeStartPosition t n =
        ((l.dropLast).map (fun i => (textOf t i).length)).sum
      ∧ getCurrentNodeStartPosition t n + (textOf t n).length =
        (getBranchText t n).length := by
  intro t n l hv h
  have hlen : l.length ≤ t.nodes.length + 1 :=
    le_trans (rpath_length_le hv h) (Nat.le_succ _)
  obtain ⟨nds, hfa, hcol⟩ := collectToRoot_spec hv h (t.nodes.length + 1) [] hlen
  have htext : nds.map (fun nd => nd.text) = l.map (textOf t) := forall₂_get_map_text hfa
  obtain ⟨l', hl'⟩ := rpath_concat h
  have hstart : getCurrentNodeStartPosition t n =
      ((l.dropLast).map (fun i => (textOf t i).length)).sum := by
    simp only [getCurrentNodeStartPosition]
    rw [hcol, List.append_nil]
    have h1 : nds.map (fun nd => nd.text.length) =
        l.map (fun i => (textOf t i).length) := by
      have : nds.map (fun nd => nd.text.length) =
          (nds.map (fun nd => nd.text)).map String.length := by
        rw [List.map_map]
        rfl
      rw [this, htext, List.map_map]
      rfl
    rw [← map_dropLast' (fun nd => nd.text.length) nds, h1, map_dropLast']
  refine ⟨hstart, ?_⟩
  have hbranch := getBranchText_path_concat t n l hv h
  rw [hstart, hbranch, length_join_strings, List.map_map]
  have hdl : l.dropLast = l' := by rw [hl']; exact List.dropLast_concat ..
  rw [hdl, hl']
  have hcomp : (String.length ∘ textOf t) = fun i => (textOf t i).length := rfl
  rw [hcomp]
  simp

/-! ## Lock clearing on load, import and extraction -/

/-- Every node stored in the map is unlocked with no lock reason. -/
def UnlockedMap (m : NodeMap) : Prop :=
  ∀ k nd, lookupNode m k = some nd → nd.locked = false ∧ nd.lockReason = none

theorem unlockedMap_nil : UnlockedMap [] := by
  intro k nd hk
  cases hk

theorem unlockedMap_setNode {m : NodeMap} (h : UnlockedMap m) {i : String} {v : TreeNode}
    (hv : v.locked = false ∧ v.lockReason = none) : UnlockedMap (setNode m i v) := by
  intro k nd hk
  rw [lookupNode, setNode, lookupEntry_setEntry] at hk
  by_cases hik : i = k
  · rw [if_pos hik] at hk
    cases Option.some.inj hk
    exact hv
  · rw [if_neg hik] at hk
    exact h k nd hk

theorem copyChildrenWith_unlocked (f : String → Option String → NodeMap → NodeMap × String)
    (hf : ∀ c np a, UnlockedMap a → UnlockedMap (f c np a).1) :
    ∀ cs pid acc, UnlockedMap acc → UnlockedMap (copyChildrenWith f cs pid acc).1 := by
  intro cs
  induction cs with
  | nil => intro pid acc h; exact h
  | cons c cs ih =>
    intro pid acc h
    exact ih pid _ (hf c (some pid) acc h)

/-- `copyNode` only ever writes unlocked nodes. -/
theorem copyNode_unlocked (t : Tree) :
    ∀ fuel x np acc, UnlockedMap acc → UnlockedMap (copyNode t fuel x np acc).1 := by
  intro fuel
  induction fuel with
  | zero => intro x np acc h; exact h
  | succ fuel ih =>
    intro x np acc h
    simp only [copyNode]
    cases hget : t.get x with
    | none => exact h
    | some oldNode =>
      refine unlockedMap_setNode ?_ ⟨rfl, rfl⟩
      refine copyChildrenWith_unlocked _ (fun c np a ha => ih c np a ha) _ _ _ ?_
      exact unlockedMap_setNode h ⟨rfl, rfl⟩

/-- The shared load/import node-conversion loop clears every lock. -/
theorem unlockNodesToMap_unlocked (ns : List TreeNode) : UnlockedMap (unlockNodesToMap ns) := by
  have haux : ∀ (ns : List TreeNode) (m : NodeMap), UnlockedMap m →
      UnlockedMap (ns.foldl (fun m node =>
        setNode m node.id { node with locked := false, lockReason := none }) m) := by
    intro ns
    induction ns with
    | nil => intro m h; exact h
    | cons node ns ih =>
      intro m h
      exact ih _ (unlockedMap_setNode h ⟨rfl, rfl⟩)
  exact haux ns [] unlockedMap_nil

/-- C2: in both the localStorage branch and the Electron branch of
`loadTree`, every node of the returned tree is unlocked with no
`lockReason`, regardless of the `locked`/`lockReason` values stored on
disk. -/
theorem loadTree_clears_locks :
    ∀ (parsed : PersistedTree) (k : String) (nd : TreeNode),
      ((loadTreeLocalStorage parsed).get k = some nd →
        nd.locked = false ∧ nd.lockReason = none)
      ∧ ((loadTreeElectron parsed).get k = some nd →
        nd.locked = false ∧ nd.lockReason = none) := by
  intro parsed k nd
  constructor
  · intro h
    exact unlockNodesToMap_unlocked parsed.nodes k nd h
  · intro h
    exact unlockNodesToMap_unlocked parsed.nodes k nd h

/-- C7: every node of a tree produced by `extractSubtree` (via
`copyNode`) or by `importTree` is unlocked (`locked = false`,
`lockReason` absent), regardless of the lock state of the source
nodes. -/
theorem extractSubtree_importTree_unlocked :
    (∀ (t : Tree) (n name : String) (r : Tree), extractSubtree t n name = some r →
      ∀ k nd, r.get k = some nd → nd.locked = false ∧ nd.lockReason = none)
    ∧ (∀ (parsed : PersistedTree) (resolvedId : Option String) (k : String) (nd : TreeNode),
        (importTree parsed resolvedId).get k = some nd →
        nd.locked = false ∧ nd.lockReason = none) := by
  constructor
  · intro t n name r hr k nd hk
    cases hgn : t.get n with
    | none =>
      simp only [extractSubtree, hgn] at hr
      cases hr
    | some nd0 =>
      simp only [extractSubtree, hgn] at hr
      cases hr
      exact copyNode_unlocked t (t.nodes.length + 1) n none [] unlockedMap_nil k nd hk
  · intro parsed resolvedId k nd h
    exact unlockNodesToMap_unlocked parsed.nodes k nd h

/-- C1: extracting a subtree from a valid tree at a present node yields a
tree satisfying the full validity invariant, rooted at the extracted
node's (copied) id with a null parent and the cursor on the root; and
`createNewTree` yields a valid single-root tree with the cursor on the
root. -/
theorem extractSubtree_createNewTree_validity :
    (∀ (t : Tree) (n name : String) (nd0 : TreeNode), ValidTree t → t.get n = some nd0 →
      ∃ r, extractSubtree t n name = some r ∧ ValidTree r ∧ r.rootId = n ∧
        r.currentNodeId = r.rootId ∧ ∃ rn, r.get n = some rn ∧ rn.parentId = none)
    ∧ (∀ name rootId, ValidTree (createNewTree name rootId) ∧
        (createNewTree name rootId).currentNodeId = (createNewTree name rootId).rootId) :=
  ⟨fun _ _n name _nd0 hv hget => extractSubtree_valid hv hget name, createNewTree_valid⟩

/-! ## Agent start/stop -/

theorem any_of_lookupEntry {β : Type} {m : EntryMap β} {i : String} {v : β}
    (h : lookupEntry m i = some v) : m.any (fun pr => pr.1 == i) = true :=
  List.any_eq_true.mpr ⟨(i, v), mem_of_lookupEntry_eq_some h, by simp⟩

theorem mem_setEntry_key_eq {β : Type} {m : EntryMap β} {i : String} {b : β}
    {pr : String × β} (hpr : pr ∈ setEntry m i b) (hk : pr.1 = i) : pr = (i, b) := by
  unfold setEntry at hpr
  cases hmem : m.any (fun pr => pr.1 == i)
  · rw [if_neg (by simp [hmem])] at hpr
    rcases List.mem_append.mp hpr with h | h
    · exact absurd hk (any_key_eq_false hmem pr h)
    · simpa using h
  · rw [if_pos (by simp [hmem])] at hpr
    rcases List.mem_map.mp hpr with ⟨pr0, _, hf⟩
    by_cases h0 : pr0.1 = i
    · rw [← hf, if_pos (by simp [h0])]
    · rw [← hf, if_neg (by simp [h0])] at hk ⊢
      exact absurd hk h0

/-- Re-`set`ting the same key to the same value is a no-op. -/
theorem setEntry_idem {β : Type} (m : EntryMap β) (i : String) (b : β) :
    setEntry (setEntry m i b) i b = setEntry m i b := by
  have hany : (setEntry m i b).any (fun pr => pr.1 == i) = true :=
    any_of_lookupEntry (by rw [lookupEntry_setEntry, if_pos rfl])
  have hall : ∀ pr ∈ setEntry m i b, (if pr.1 == i then (i, b) else pr) = pr := by
    intro pr hpr
    by_cases hk : pr.1 = i
    · rw [if_pos (by simp [hk])]
      exact (mem_setEntry_key_eq hpr hk).symm
    · rw [if_neg (by simp [hk])]
  generalize hM : setEntry m i b = M at hany hall ⊢
  unfold setEntry
  rw [if_pos hany]
  calc M.map (fun pr => if pr.1 == i then (i, b) else pr)
      = M.map id := List.map_congr_left hall
    _ = M := List.map_id M

theorem updateScoutActive_idem (scouts : List ScoutConfig) (sid : String)
    (act : Bool) (anid : Option String) :
    updateScoutActive (updateScoutActive scouts sid act anid) sid act anid =
      updateScoutActive scouts sid act anid := by
  unfold updateScoutActive
  rw [List.map_map]
  refine List.map_congr_left fun s _ => ?_
  by_cases h : s.id = sid
  · simp [Function.comp, h]
  · simp [Function.comp, h]

/-- C6: when the tree's current node is locked at agent start, `startScout`
exits before any work: no agent algorithm is launched, the scout list
(in particular the scout's `active`/`activeNodeId`), the stop-flag map
and the tree are all left exactly as they were. -/
theorem startScout_locked_early_exit :
    ∀ (st : ScoutPanelState) (scoutId : String) (t : Tree) (nd : TreeNode),
      st.currentTree = some t → t.get t.currentNodeId = some nd → nd.locked = true →
      (startScout st scoutId).1 = st ∧
        ∀ kind, (startScout st scoutId).2 ≠ StartResult.launched kind := by
  intro st sid t nd htree hget hlock
  simp only [startScout, htree, hget]
  cases hfind : st.scouts.find? (fun s => s.id == sid) with
  | none => exact ⟨rfl, fun kind h => by cases h⟩
  | some scout =>
    rw [hlock]
    exact ⟨rfl, fun kind h => by cases h⟩

/-- C8: requesting cancellation is idempotent — a second `stopScout` with
the same id leaves the whole panel state (stop flags and the scout's
`active`/`activeNodeId`) exactly as after the first; the stop flag, when
present, is only ever set to `true` (never unset, and absent flags stay
absent), and no other scout's flag is touched. -/
theorem stopScout_idempotent :
    ∀ (st : ScoutPanelState) (scoutId : String),
      stopScout (stopScout st scoutId) scoutId = stopScout st scoutId
      ∧ (∀ b, lookupFlag st.activeScouts scoutId = some b →
          lookupFlag (stopScout st scoutId).activeScouts scoutId = some true)
      ∧ (lookupFlag st.activeScouts scoutId = none →
          lookupFlag (stopScout st scoutId).activeScouts scoutId = none)
      ∧ (∀ j, j ≠ scoutId →
          lookupFlag (stopScout st scoutId).activeScouts j =
            lookupFlag st.activeScouts j) := by
  intro st sid
  refine ⟨?_, ?_, ?_, ?_⟩
  · cases hflag : lookupFlag st.activeScouts sid with
    | none =>
      simp only [stopScout, hflag]
      rw [updateScoutActive_idem]
    | some b =>
      have hflag' : lookupEntry st.activeScouts sid = some b := hflag
      have hlook : lookupEntry (setEntry st.activeScouts sid true) sid = some true := by
        rw [lookupEntry_setEntry, if_pos rfl]
      simp only [stopScout, lookupFlag, setFlag, hflag', hlook]
      rw [updateScoutActive_idem, setEntry_idem]
  · intro b hb
    have hb' : lookupEntry st.activeScouts sid = some b := hb
    simp only [stopScout, lookupFlag, setFlag, hb']
    show lookupEntry (setEntry st.activeScouts sid true) sid = some true
    rw [lookupEntry_setEntry, if_pos rfl]
  · intro hnone
    have hnone' : lookupEntry st.activeScouts sid = none := hnone
    simp only [stopScout, lookupFlag, hnone']
  · intro j hj
    cases hflag : lookupFlag st.activeScouts sid with
    | none =>
      have hflag' : lookupEntry st.activeScouts sid = none := hflag
      simp only [stopScout, lookupFlag, hflag']
    | some b =>
      have hflag' : lookupEntry st.activeScouts sid = some b := hflag
      simp only [stopScout, lookupFlag, setFlag, hflag']
      show lookupEntry (setEntry st.activeScouts sid true) j = lookupEntry st.activeScouts j
      rw [lookupEntry_setEntry, if_neg (fun h => hj h.symm)]

/-! ## Retry wrapper -/

theorem withRetryGo_count_le {E A : Type} (results : Nat → Except E A) :
    ∀ remaining attempt, (withRetryGo results remaining attempt).2 ≤ remaining + 1 := by
  intro remaining
  induction remaining with
  | zero =>
    intro attempt
    rw [withRetryGo.eq_1]
    cases results attempt <;> simp
  | succ r ih =>
    intro attempt
    rw [withRetryGo.eq_1]
    cases results attempt with
    | ok v => simp
    | error e =>
      have := ih (attempt + 1)
      simp only []
      omega

theorem withRetryGo_first_ok {E A : Type} (results : Nat → Except E A) :
    ∀ d remaining attempt v, d ≤ remaining →
      (∀ j, attempt ≤ j → j < attempt + d → ∃ e, results j = Except.error e) →
      results (attempt + d) = Except.ok v →
      withRetryGo results remaining attempt = (Except.ok v, d + 1) := by
  intro d
  induction d with
  | zero =>
    intro remaining attempt v _ _ hok
    rw [Nat.add_zero] at hok
    rw [withRetryGo.eq_1, hok]
  | succ d ih =>
    intro remaining attempt v hd herr hok
    obtain ⟨e, he⟩ := herr attempt (le_refl _) (by omega)
    cases remaining with
    | zero => omega
    | succ r =>
      rw [withRetryGo.eq_1, he]
      have hrec := ih r (attempt + 1) v (by omega)
        (fun j hj1 hj2 => herr j (by omega) (by omega))
        (by rw [show attempt + 1 + d = attempt + (d + 1) by omega]; exact hok)
      simp only []
      rw [hrec]

theorem withRetryGo_all_error {E A : Type} (results : Nat → Except E A) :
    ∀ remaining attempt,
      (∀ j, attempt ≤ j → j ≤ attempt + remaining → ∃ e, results j = Except.error e) →
      ∃ e, results (attempt + remaining) = Except.error e ∧
        withRetryGo results remaining attempt = (Except.error e, remaining + 1) := by
  intro remaining
  induction remaining with
  | zero =>
    intro attempt herr
    obtain ⟨e, he⟩ := herr attempt (le_refl _) (by omega)
    refine ⟨e, by simpa using he, ?_⟩
    rw [withRetryGo.eq_1, he]
  | succ r ih =>
    intro attempt herr
    obtain ⟨e0, he0⟩ := herr attempt (le_refl _) (by omega)
    obtain ⟨e, he, hgo⟩ := ih (attempt + 1) (fun j hj1 hj2 => herr j (by omega) (by omega))
    refine ⟨e, by rw [show attempt + (r + 1) = attempt + 1 + r by omega]; exact he, ?_⟩
    rw [withRetryGo.eq_1, he0]
    simp only []
    rw [hgo]

/-- C10: `withRetry` invokes the wrapped function at most
`maxRetries + 1` times (4 with the default of 3); when the attempts
`0, …, i-1` fail and attempt `i ≤ maxRetries` succeeds, it returns that
first success, having invoked the function exactly `i + 1` times (never
again after the success); and when every attempt up to `maxRetries`
throws, it rethrows the error of the last attempt. -/
theorem withRetry_spec :
    ∀ {E A : Type} (results : Nat → Except E A) (maxRetries : Nat),
      (withRetry results maxRetries).2 ≤ maxRetries + 1
      ∧ (∀ i v, i ≤ maxRetries → (∀ j, j < i → ∃ e, results j = Except.error e) →
          results i = Except.ok v →
          withRetry results maxRetries = (Except.ok v, i + 1))
      ∧ ((∀ j, j ≤ maxRetries → ∃ e, results j = Except.error e) →
          ∃ e, results maxRetries = Except.error e ∧
            withRetry results maxRetries = (Except.error e, maxRetries + 1)) := by
  intro E A results maxRetries
  refine ⟨withRetryGo_count_le results maxRetries 0, ?_, ?_⟩
  · intro i v hi herr hok
    exact withRetryGo_first_ok results i maxRetries 0 v hi
      (fun j _ hj => herr j (by omega)) (by simpa using hok)
  · intro herr
    obtain ⟨e, he, hgo⟩ := withRetryGo_all_error results maxRetries 0
      (fun j _ hj => herr j (by omega))
    exact ⟨e, by simpa using he, hgo⟩

/-! ## Mass merge: invariant, fixpoint, idempotence -/

/-- The part of the validity invariant that the merge loop preserves:
unique keys, coherent child links, and a rank function certifying
acyclicity of the child relation. -/
structure MergeInv (t : Tree) : Prop where
  keysNodup : (t.nodes.map Prod.fst).Nodup
  childOk : ∀ pr ∈ t.nodes, ∀ c ∈ pr.2.childIds,
    ∃ cn, t.get c = some cn ∧ cn.parentId = some pr.1
  rank : ∃ rk : String → Nat, ∀ pr ∈ t.nodes, ∀ c ∈ pr.2.childIds, rk pr.1 < rk c

theorem validTree_mergeInv {t : Tree} (hv : ValidTree t) : MergeInv t := by
  refine ⟨hv.keysNodup, hv.childOk, ?_⟩
  classical
  refine ⟨fun i => if h : Reach t i then h.choose.length else 0, ?_⟩
  intro pr hpr c hc
  have hreach_p : Reach t pr.1 := hv.reachAll pr hpr
  have hget_p : t.get pr.1 = some pr.2 := hv.get_of_mem hpr
  have hdesc : Desc t pr.1 c := ⟨pr.2, hget_p, hc⟩
  have hstep : RPath t c (hreach_p.choose ++ [c]) := RPath.step hreach_p.choose_spec hdesc
  have hreach_c : Reach t c := ⟨_, hstep⟩
  show (if h : Reach t pr.1 then (Exists.choose h).length else 0) <
    (if h : Reach t c then (Exists.choose h).length else 0)
  rw [dif_pos hreach_p, dif_pos hreach_c]
  have hchoose : hreach_c.choose = hreach_p.choose ++ [c] :=
    rpath_unique hv hreach_c.choose_spec _ hstep
  rw [hchoose]
  simp

/-- The value rewriting a surviving node undergoes in one merge step. -/
def mergeTransform (p : String) (cn : TreeNode) (k : String) (nd : TreeNode) : TreeNode :=
  if k = p then { nd with text := nd.text ++ cn.text, childIds := cn.childIds }
  else if cn.childIds.contains k then { nd with parentId := some p }
  else nd

/-- Looking up in a key-preserving `filterMap` that drops exactly key `c`
and rewrites every other value with `g`. -/
theorem lookupEntry_filterMap_keyed {β : Type} (c : String) (g : String → β → β) :
    ∀ (m : EntryMap β) (k : String),
      lookupEntry (m.filterMap (fun pr =>
        if pr.1 == c then none else some (pr.1, g pr.1 pr.2))) k =
      if k = c then none else (lookupEntry m k).map (g k) := by
  intro m
  induction m with
  | nil =>
    intro k
    by_cases hk : k = c <;> simp [lookupEntry_nil, hk]
  | cons pr m ih =>
    intro k
    rw [List.filterMap_cons]
    by_cases hprc : pr.1 = c
    · rw [if_pos (by simp [hprc])]
      rw [ih, lookupEntry_cons]
      by_cases hk : k = c
      · rw [if_pos hk, if_pos hk]
      · rw [if_neg hk, if_neg hk]
        have hne : (pr.1 == k) = false := by
          simp only [beq_eq_false_iff_ne, ne_eq]
          intro h
          exact hk (by rw [← h, hprc])
        rw [hne]
        simp
    · rw [if_neg (by simp [hprc])]
      rw [lookupEntry_cons, lookupEntry_cons, ih]
      by_cases hk : pr.1 = k
      · have hkc : k ≠ c := fun h => hprc (hk.trans h)
        simp [hk, hkc]
      · simp [hk]

theorem mergeInto_lookup {t : Tree} {c : String} {cn : TreeNode} (hgc : t.get c = some cn)
    (p : String) :
    ∀ k, (mergeInto t p c).get k =
      if k = c then none
      else (t.get k).map (mergeTransform p cn k) := by
  intro k
  show lookupEntry (mergeInto t p c).nodes k = _
  simp only [mergeInto, hgc]
  have hfun : (fun pr : String × TreeNode =>
      if pr.1 == c then none
      else if pr.1 == p then
        some (pr.1, { pr.2 with text := pr.2.text ++ cn.text, childIds := cn.childIds })
      else if cn.childIds.contains pr.1 then
        some (pr.1, { pr.2 with parentId := some p })
      else some pr) =
      (fun pr : String × TreeNode =>
        if pr.1 == c then none else some (pr.1, mergeTransform p cn pr.1 pr.2)) := by
    funext pr
    by_cases h1 : pr.1 = c
    · simp [h1, mergeTransform]
    · by_cases h2 : pr.1 = p
      · simp [h1, h2, mergeTransform]
      · by_cases h3 : pr.1 ∈ cn.childIds
        · simp [h1, h2, h3, mergeTransform]
        · simp [h1, h2, h3, mergeTransform]
  rw [hfun]
  exact lookupEntry_filterMap_keyed c (mergeTransform p cn) t.nodes k

theorem mergeInto_nodes {t : Tree} {c : String} {cn : TreeNode} (hgc : t.get c = some cn)
    (p : String) :
    (mergeInto t p c).nodes = t.nodes.filterMap (fun pr =>
      if pr.1 == c then none else some (pr.1, mergeTransform p cn pr.1 pr.2)) := by
  simp only [mergeInto, hgc]
  congr 1
  funext pr
  by_cases h1 : pr.1 = c
  · simp [h1, mergeTransform]
  · by_cases h2 : pr.1 = p
    · simp [h1, h2, mergeTransform]
    · by_cases h3 : pr.1 ∈ cn.childIds
      · simp [h1, h2, h3, mergeTransform]
      · simp [h1, h2, h3, mergeTransform]

theorem keys_filterMap_keyed_sublist {β : Type} (c : String) (g : String → β → β) :
    ∀ m : EntryMap β,
      ((m.filterMap (fun pr =>
        if pr.1 == c then none else some (pr.1, g pr.1 pr.2))).map Prod.fst).Sublist
        (m.map Prod.fst) := by
  intro m
  induction m with
  | nil => simp
  | cons pr m ih =>
    rw [List.filterMap_cons]
    by_cases h : pr.1 = c
    · rw [if_pos (by simp [h])]
      exact ih.cons pr.1
    · rw [if_neg (by simp [h])]
      simpa using ih.cons₂ pr.1

theorem length_filterMap_all_kept {β : Type} (c : String) (g : String → β → β) :
    ∀ m : EntryMap β, (∀ pr ∈ m, pr.1 ≠ c) →
      (m.filterMap (fun pr =>
        if pr.1 == c then none else some (pr.1, g pr.1 pr.2))).length = m.length := by
  intro m
  induction m with
  | nil => intro _; rfl
  | cons pr m ih =>
    intro h
    rw [List.filterMap_cons, if_neg (by simp [h pr (List.mem_cons_self pr m)])]
    simp only [List.length_cons]
    rw [ih (fun pr' hpr' => h pr' (List.mem_cons_of_mem pr hpr'))]

theorem length_filterMap_keyed {β : Type} (c : String) (g : String → β → β) :
    ∀ m : EntryMap β, (m.map Prod.fst).Nodup → (∃ v, lookupEntry m c = some v) →
      (m.filterMap (fun pr =>
        if pr.1 == c then none else some (pr.1, g pr.1 pr.2))).length + 1 = m.length := by
  intro m
  induction m with
  | nil =>
    rintro _ ⟨v, hv⟩
    cases hv
  | cons pr m ih =>
    rintro hnd ⟨v, hv⟩
    rw [List.filterMap_cons]
    by_cases h : pr.1 = c
    · rw [if_pos (by simp [h])]
      have hnomem : ∀ pr' ∈ m, pr'.1 ≠ c := by
        intro pr' hpr' hc
        rw [List.map_cons, List.nodup_cons] at hnd
        exact hnd.1 (h ▸ hc ▸ List.mem_map.mpr ⟨pr', hpr', rfl⟩)
      rw [length_filterMap_all_kept c g m hnomem]
      simp
    · rw [if_neg (by simp [h])]
      rw [lookupEntry_cons, if_neg (by simpa using h)] at hv
      rw [List.map_cons, List.nodup_cons] at hnd
      simp only [List.length_cons]
      rw [← ih hnd.2 ⟨v, hv⟩]

/-- One merge step preserves the merge invariant and removes exactly one
node. -/
theorem mergeInto_preserves {t : Tree} (hinv : MergeInv t) {p : String} {pn : TreeNode}
    {c : String} (hmem : (p, pn) ∈ t.nodes) (hone : pn.childIds = [c]) :
    MergeInv (mergeInto t p c) ∧ (mergeInto t p c).nodes.length + 1 = t.nodes.length := by
  have hgp : t.get p = some pn := lookupEntry_eq_some_of_mem hinv.keysNodup hmem
  have hcchild : c ∈ pn.childIds := by rw [hone]; exact List.mem_singleton_self c
  obtain ⟨cn, hgc, hpc⟩ := hinv.childOk (p, pn) hmem c hcchild
  obtain ⟨rk, hrk⟩ := hinv.rank
  have hrkpc : rk p < rk c := hrk (p, pn) hmem c hcchild
  have hcmem : (c, cn) ∈ t.nodes := mem_of_lookupEntry_eq_some hgc
  have hrkc : ∀ g ∈ cn.childIds, rk c < rk g := fun g hg => hrk (c, cn) hcmem g hg
  have hlookup := mergeInto_lookup hgc p
  have hnodes := mergeInto_nodes hgc p
  have hnodup' : ((mergeInto t p c).nodes.map Prod.fst).Nodup := by
    rw [hnodes]
    exact (keys_filterMap_keyed_sublist c (mergeTransform p cn) t.nodes).nodup
      hinv.keysNodup
  refine ⟨⟨hnodup', ?_, ?_⟩, ?_⟩
  · -- childOk
    intro pr' hpr' d hd
    have hlk : (mergeInto t p c).get pr'.1 = some pr'.2 :=
      lookupEntry_eq_some_of_mem hnodup' hpr'
    rw [hlookup pr'.1] at hlk
    by_cases hc1 : pr'.1 = c
    · rw [if_pos hc1] at hlk
      cases hlk
    rw [if_neg hc1] at hlk
    cases horig : t.get pr'.1 with
    | none => rw [horig] at hlk; cases hlk
    | some ndk =>
      rw [horig] at hlk
      replace hlk : some (mergeTransform p cn pr'.1 ndk) = some pr'.2 := hlk
      have hval : pr'.2 = mergeTransform p cn pr'.1 ndk := (Option.some.inj hlk).symm
      by_cases hp1 : pr'.1 = p
      · -- merged parent: children are cn's children, reparented to p
        have hndk : ndk = pn := by
          rw [hp1] at horig
          rw [horig] at hgp
          exact Option.some.inj hgp.symm |>.symm
        have hdg : d ∈ cn.childIds := by
          rw [hval, mergeTransform, if_pos hp1] at hd
          exact hd
        obtain ⟨gn, hgg, hgparent⟩ := hinv.childOk (c, cn) hcmem d hdg
        have hdc : d ≠ c := fun h => absurd (hrkc d hdg) (by rw [h]; omega)
        have hdp : d ≠ p := fun h => absurd (lt_trans hrkpc (hrkc d hdg)) (by rw [h]; omega)
        refine ⟨{ gn with parentId := some p }, ?_, ?_⟩
        · rw [hlookup d, if_neg hdc, hgg]
          show some (mergeTransform p cn d gn) = _
          have hdg2 : cn.childIds.contains d = true := by simpa using hdg
          rw [mergeTransform, if_neg hdp, if_pos hdg2]
        · simp [hp1]
      · -- untouched node (possibly reparented): children unchanged
        have hcid : pr'.2.childIds = ndk.childIds := by
          rw [hval, mergeTransform, if_neg hp1]
          by_cases h : pr'.1 ∈ cn.childIds <;> simp [h]
        rw [hcid] at hd
        have hprmem : (pr'.1, ndk) ∈ t.nodes := mem_of_lookupEntry_eq_some horig
        obtain ⟨dn, hgd, hdparent⟩ := hinv.childOk (pr'.1, ndk) hprmem d hd
        have hdc : d ≠ c := by
          intro h
          rw [h, hgc] at hgd
          cases hgd
          rw [hdparent] at hpc
          exact hp1 (Option.some.inj hpc)
        by_cases hdp : d = p
        · refine ⟨{ dn with text := dn.text ++ cn.text, childIds := cn.childIds }, ?_, ?_⟩
          · rw [hlookup d, if_neg hdc, hgd]
            show some (mergeTransform p cn d dn) = _
            rw [mergeTransform, if_pos hdp]
          · exact hdparent
        · have hdcont : ¬ d ∈ cn.childIds := by
            intro h
            obtain ⟨dn', hgd', hdp'⟩ := hinv.childOk (c, cn) hcmem d h
            rw [hgd] at hgd'
            cases hgd'
            rw [hdparent] at hdp'
            exact hc1 (Option.some.inj hdp')
          refine ⟨dn, ?_, hdparent⟩
          rw [hlookup d, if_neg hdc, hgd]
          show some (mergeTransform p cn d dn) = _
          have hdcont2 : ¬(cn.childIds.contains d = true) := by simpa using hdcont
          rw [mergeTransform, if_neg hdp, if_neg hdcont2]
  · -- rank
    refine ⟨rk, ?_⟩
    intro pr' hpr' d hd
    have hlk : (mergeInto t p c).get pr'.1 = some pr'.2 :=
      lookupEntry_eq_some_of_mem hnodup' hpr'
    rw [hlookup pr'.1] at hlk
    by_cases hc1 : pr'.1 = c
    · rw [if_pos hc1] at hlk
      cases hlk
    rw [if_neg hc1] at hlk
    cases horig : t.get pr'.1 with
    | none => rw [horig] at hlk; cases hlk
    | some ndk =>
      rw [horig] at hlk
      replace hlk : some (mergeTransform p cn pr'.1 ndk) = some pr'.2 := hlk
      have hval : pr'.2 = mergeTransform p cn pr'.1 ndk := (Option.some.inj hlk).symm
      have hprmem : (pr'.1, ndk) ∈ t.nodes := mem_of_lookupEntry_eq_some horig
      by_cases hp1 : pr'.1 = p
      · have hdg : d ∈ cn.childIds := by
          rw [hval, mergeTransform, if_pos hp1] at hd
          exact hd
        rw [hp1]
        exact lt_trans hrkpc (hrkc d hdg)
      · have hcid : pr'.2.childIds = ndk.childIds := by
          rw [hval, mergeTransform, if_neg hp1]
          by_cases h : pr'.1 ∈ cn.childIds <;> simp [h]
        rw [hcid] at hd
        exact hrk (pr'.1, ndk) hprmem d hd
  · -- length
    rw [hnodes]
    exact length_filterMap_keyed c (mergeTransform p cn) t.nodes hinv.keysNodup ⟨cn, hgc⟩

theorem findSingleChildPair_some {t : Tree} {p c : String}
    (h : findSingleChildPair t = some (p, c)) :
    ∃ pn, (p, pn) ∈ t.nodes ∧ pn.childIds = [c] := by
  unfold findSingleChildPair at h
  cases hfind : t.nodes.find? (fun pr => pr.2.childIds.length == 1) with
  | none => rw [hfind] at h; cases h
  | some pr =>
    rw [hfind] at h
    have hmem := List.mem_of_find?_eq_some hfind
    have hlen := List.find?_some hfind
    simp only [beq_iff_eq] at hlen
    replace h : (match pr.2.childIds with
      | c :: _ => some (pr.1, c)
      | [] => none) = some (p, c) := h
    cases hcid : pr.2.childIds with
    | nil => rw [hcid] at hlen; simp at hlen
    | cons c0 rest =>
      rw [hcid] at h hlen
      cases rest with
      | nil =>
        replace h : some (pr.1, c0) = some (p, c) := h
        obtain ⟨hp, hc⟩ := Prod.mk.injEq .. ▸ Option.some.inj h
        refine ⟨pr.2, ?_, ?_⟩
        · rw [← hp]; exact hmem
        · rw [hcid, hc]
      | cons c1 rest' => simp at hlen

theorem findSingleChildPair_none_iff {t : Tree} :
    findSingleChildPair t = none ↔ ∀ pr ∈ t.nodes, pr.2.childIds.length ≠ 1 := by
  constructor
  · intro h pr hpr hlen
    unfold findSingleChildPair at h
    cases hfind : t.nodes.find? (fun pr => pr.2.childIds.length == 1) with
    | none =>
      have := List.find?_eq_none.mp hfind pr hpr
      simp [hlen] at this
    | some pr' =>
      rw [hfind] at h
      have hlen' := List.find?_some hfind
      simp only [beq_iff_eq] at hlen'
      replace h : (match pr'.2.childIds with
        | c :: _ => some (pr'.1, c)
        | [] => none) = none := h
      cases hcid : pr'.2.childIds with
      | nil => rw [hcid] at hlen'; simp at hlen'
      | cons c0 rest =>
        rw [hcid] at h
        cases h
  · intro h
    unfold findSingleChildPair
    rw [List.find?_eq_none.mpr fun pr hpr => by simp [h pr hpr]]

theorem massMergeAux_of_none {t : Tree} (h : findSingleChildPair t = none) :
    ∀ fuel, massMergeAux fuel t = t := by
  intro fuel
  cases fuel with
  | zero => rfl
  | succ f =>
    show (match findSingleChildPair t with
      | none => t
      | some pc => massMergeAux f (mergeInto t pc.1 pc.2)) = t
    rw [h]

/-- With fuel at least the node count, the merge loop reaches its
fixpoint: no single-child node remains, and the invariant still holds. -/
theorem massMergeAux_fixpoint :
    ∀ fuel (t : Tree), MergeInv t → t.nodes.length ≤ fuel →
      findSingleChildPair (massMergeAux fuel t) = none ∧ MergeInv (massMergeAux fuel t) := by
  intro fuel
  induction fuel with
  | zero =>
    intro t hinv hlen
    have hnil : t.nodes = [] := List.eq_nil_of_length_eq_zero (by omega)
    refine ⟨?_, hinv⟩
    show findSingleChildPair t = none
    refine findSingleChildPair_none_iff.mpr ?_
    intro pr hpr
    rw [hnil] at hpr
    cases hpr
  | succ fuel ih =>
    intro t hinv hlen
    cases hfind : findSingleChildPair t with
    | none =>
      have hred : massMergeAux (fuel + 1) t = t := by
        show (match findSingleChildPair t with
          | none => t
          | some pc => massMergeAux fuel (mergeInto t pc.1 pc.2)) = t
        rw [hfind]
      rw [hred]
      exact ⟨hfind, hinv⟩
    | some pc =>
      obtain ⟨p, c⟩ := pc
      obtain ⟨pn, hmem, hone⟩ := findSingleChildPair_some hfind
      obtain ⟨hinv', hlen'⟩ := mergeInto_preserves hinv hmem hone
      have hred : massMergeAux (fuel + 1) t = massMergeAux fuel (mergeInto t p c) := by
        show (match findSingleChildPair t with
          | none => t
          | some pc => massMergeAux fuel (mergeInto t pc.1 pc.2)) = _
        rw [hfind]
      rw [hred]
      exact ih (mergeInto t p c) hinv' (by omega)

/-- C5: on every structurally valid tree, running `massMerge` twice
produces the same tree as running it once; and on a tree that is already
fully merged (no node with exactly one child), the merge loop returns the
tree unchanged for every fuel value — the loop body never runs, so the
iteration cannot diverge. -/
theorem massMerge_idempotent_terminating :
    (∀ t : Tree, ValidTree t → massMerge (massMerge t) = massMerge t)
    ∧ (∀ t : Tree, (∀ pr ∈ t.nodes, pr.2.childIds.length ≠ 1) →
        ∀ fuel, massMergeAux fuel t = t) := by
  constructor
  · intro t hv
    have hinv := validTree_mergeInv hv
    obtain ⟨hfix, _⟩ := massMergeAux_fixpoint t.nodes.length t hinv (le_refl _)
    exact massMergeAux_of_none hfix _
  · intro t hns fuel
    exact massMergeAux_of_none (findSingleChildPair_none_iff.mpr hns) fuel

/-! ## The user cull command -/

theorem subtreeIds_leaf {t : Tree} {i : String} {nd : TreeNode}
    (hget : t.get i = some nd) (hleaf : nd.childIds = []) :
    ∀ fuel, subtreeIds t (fuel + 1) i = [i] := by
  intro fuel
  simp [subtreeIds, hget, hleaf]

/-- Deleting an unlocked non-root leaf removes exactly that node: its key
disappears, every other key survives with only the reference to the
deleted node filtered out of its `childIds`. -/
theorem deleteNode_leaf {t : Tree} {i : String} {nd : TreeNode}
    (hget : t.get i = some nd) (hleaf : nd.childIds = []) (hnr : i ≠ t.rootId) :
    (deleteNode t i).get i = none
    ∧ (∀ k, k ≠ i → (deleteNode t i).get k =
        (t.get k).map (fun v => { v with childIds := v.childIds.filter (fun c => !([i].contains c)) }))
    ∧ (∀ k nd', (deleteNode t i).get k = some nd' → i ∉ nd'.childIds) := by
  have hnodes : (deleteNode t i).nodes = t.nodes.filterMap (fun pr =>
      if pr.1 == i then none
      else some (pr.1, { pr.2 with childIds := pr.2.childIds.filter (fun c => !([i].contains c)) })) := by
    simp only [deleteNode]
    rw [if_neg (by simpa using hnr), hget]
    simp only [subtreeIds_leaf hget hleaf]
    congr 1
    funext pr
    by_cases h : pr.1 = i
    · simp [h]
    · simp [h]
  have hlook : ∀ k, (deleteNode t i).get k =
      if k = i then none
      else (t.get k).map (fun v =>
        { v with childIds := v.childIds.filter (fun c => !([i].contains c)) }) := by
    intro k
    show lookupEntry (deleteNode t i).nodes k = _
    rw [hnodes]
    exact lookupEntry_filterMap_keyed i
      (fun _ v => { v with childIds := v.childIds.filter (fun c => !([i].contains c)) })
      t.nodes k
  refine ⟨by rw [hlook, if_pos rfl], ?_, ?_⟩
  · intro k hk
    rw [hlook, if_neg hk]
  · intro k nd' h
    rw [hlook] at h
    by_cases hk : k = i
    · rw [if_pos hk] at h
      cases h
    · rw [if_neg hk] at h
      cases hgk : t.get k with
      | none => rw [hgk] at h; cases h
      | some v =>
        rw [hgk] at h
        replace h : some ({ v with
          childIds := v.childIds.filter (fun c => !([i].contains c)) }) = some nd' := h
        cases Option.some.inj h
        intro hmem
        have := (List.mem_filter.mp hmem).2
        simp at this

/-- C4 (amended): for a valid tree whose current node is non-root and
unlocked, `handleCull` deletes the node (with its — for a leaf, trivial —
subtree, via `deleteNode`, leaving no stale references) only when the
node has no children; when it has children, nothing is deleted — the node
map is unchanged and the cursor merely moves to the first child. -/
theorem handleCull_spec :
    ∀ (t : Tree) (nd : TreeNode), ValidTree t → t.get t.currentNodeId = some nd →
      nd.id ≠ t.rootId → nd.locked = false →
      (∀ c rest, nd.childIds = c :: rest →
        handleCull (some t) = some (setCurrentNode t c) ∧ (setCurrentNode t c).nodes = t.nodes)
      ∧ (nd.childIds = [] →
        handleCull (some t) = some (deleteNode t nd.id)
        ∧ (deleteNode t nd.id).get nd.id = none
        ∧ (∀ k, k ≠ nd.id → ((deleteNode t nd.id).get k).isSome = (t.get k).isSome)
        ∧ (∀ k nd', (deleteNode t nd.id).get k = some nd' → nd.id ∉ nd'.childIds)) := by
  intro t nd hv hget hnr hlock
  have hid : nd.id = t.currentNodeId := hv.idEq hget
  have hcond : (nd.id == t.rootId || nd.locked) = false := by
    simp [hnr, hlock]
  constructor
  · intro c rest hcid
    have hred : handleCull (some t) = some (setCurrentNode t c) := by
      simp only [handleCull, hget, hcond, hcid]
      simp
    exact ⟨hred, rfl⟩
  · intro hleaf
    have hget' : t.get nd.id = some nd := by rw [hid]; exact hget
    have hnr' : nd.id ≠ t.rootId := hnr
    obtain ⟨hgone, hothers, hnoref⟩ := deleteNode_leaf hget' hleaf hnr'
    refine ⟨?_, hgone, ?_, hnoref⟩
    · simp only [handleCull, hget, hcond, hleaf]
      simp
    · intro k hk
      rw [hothers k hk]
      cases t.get k <;> rfl

/-! ## Concrete example inputs -/

/-- A three-node chain `r → a → b` with the cursor on `a`; `b` is locked
on disk to exercise the unlock-on-copy behaviour. -/
def exampleANode : TreeNode :=
  { id := "a", text := " upon", parentId := some "r", childIds := ["b"], locked := false }

def exampleTree : Tree :=
  { id := "example"
    name := "example"
    nodes := [("r", { id := "r", text := "Once", parentId := none, childIds := ["a"], locked := false }),
      ("a", exampleANode),
      ("b", { id := "b", text := " a time", parentId := some "a", childIds := [], locked := true, lockReason := some LockReason.expanding })]
    rootId := "r"
    currentNodeId := "a"
    bookmarkedNodeIds := [] }

theorem exampleTree_valid : ValidTree exampleTree := by
  refine ⟨by decide, by decide, ⟨_, rfl, rfl⟩, ?_, ?_, by decide, ?_⟩
  · intro pr hpr c hc
    simp only [exampleTree, List.mem_cons, List.not_mem_nil, or_false] at hpr
    rcases hpr with rfl | rfl | rfl
    · rcases List.mem_singleton.mp hc with rfl
      exact ⟨_, rfl, rfl⟩
    · rcases List.mem_singleton.mp (by simpa [exampleANode] using hc) with rfl
      exact ⟨_, rfl, rfl⟩
    · simp at hc
  · intro pr hpr hne
    simp only [exampleTree, List.mem_cons, List.not_mem_nil, or_false] at hpr
    rcases hpr with rfl | rfl | rfl
    · exact absurd rfl hne
    · exact ⟨"r", _, rfl, rfl, by decide⟩
    · exact ⟨"a", _, rfl, rfl, by decide⟩
  · intro pr hpr
    simp only [exampleTree, List.mem_cons, List.not_mem_nil, or_false] at hpr
    rcases hpr with rfl | rfl | rfl
    · exact ⟨["r"], RPath.root⟩
    · exact ⟨["r"] ++ ["a"], RPath.step RPath.root ⟨_, rfl, by decide⟩⟩
    · exact ⟨["r"] ++ ["a"] ++ ["b"],
        RPath.step (RPath.step RPath.root ⟨_, rfl, by decide⟩) ⟨_, rfl, by decide⟩⟩

theorem exampleTree_rpath_b : RPath exampleTree "b" ["r", "a", "b"] :=
  show RPath exampleTree "b" (["r"] ++ ["a"] ++ ["b"]) from
    RPath.step (RPath.step RPath.root ⟨_, rfl, by decide⟩) ⟨_, rfl, by decide⟩

/-- A two-node tree `r → a` with the cursor on the leaf `a`. -/
def leafANode : TreeNode :=
  { id := "a", text := "leaf", parentId := some "r", childIds := [], locked := false }

def leafTree : Tree :=
  { id := "leafy"
    name := "leafy"
    nodes := [("r", { id := "r", text := "", parentId := none, childIds := ["a"], locked := false }),
      ("a", leafANode)]
    rootId := "r"
    currentNodeId := "a"
    bookmarkedNodeIds := [] }

theorem leafTree_valid : ValidTree leafTree := by
  refine ⟨by decide, by decide, ⟨_, rfl, rfl⟩, ?_, ?_, by decide, ?_⟩
  · intro pr hpr c hc
    simp only [leafTree, List.mem_cons, List.not_mem_nil, or_false] at hpr
    rcases hpr with rfl | rfl
    · rcases List.mem_singleton.mp hc with rfl
      exact ⟨_, rfl, rfl⟩
    · simp [leafANode] at hc
  · intro pr hpr hne
    simp only [leafTree, List.mem_cons, List.not_mem_nil, or_false] at hpr
    rcases hpr with rfl | rfl
    · exact absurd rfl hne
    · exact ⟨"r", _, rfl, rfl, by decide⟩
  · intro pr hpr
    simp only [leafTree, List.mem_cons, List.not_mem_nil, or_false] at hpr
    rcases hpr with rfl | rfl
    · exact ⟨["r"], RPath.root⟩
    · exact ⟨["r"] ++ ["a"], RPath.step RPath.root ⟨_, rfl, by decide⟩⟩

/-- A tree with no single-child node (already fully merged). -/
def mergedTree : Tree :=
  { id := "m"
    name := "m"
    nodes := [("r", { id := "r", text := "", parentId := none, childIds := ["a", "b"], locked := false }),
      ("a", { id := "a", text := "x", parentId := some "r", childIds := [], locked := false }),
      ("b", { id := "b", text := "y", parentId := some "r", childIds := [], locked := false })]
    rootId := "r"
    currentNodeId := "r"
    bookmarkedNodeIds := [] }

/-- A persisted tree whose only node is still locked on disk. -/
def examplePersisted : PersistedTree :=
  { id := "imp"
    name := "imp"
    nodes := [{ id := "n1", text := "t", parentId := none, childIds := [], locked := true, lockReason := some LockReason.tridentActive }]
    rootId := "n1"
    currentNodeId := "n1"
    bookmarkedNodeIds := none }

def exampleLoadedNode : TreeNode :=
  { id := "n1", text := "t", parentId := none, childIds := [], locked := false }

/-- The tree `extractSubtree exampleTree "a" "sub"` evaluates to. -/
def exampleExtracted : Tree :=
  { id := "sub"
    name := "sub"
    nodes := [("a", { id := "a", text := " upon", parentId := none, childIds := ["b"], locked := false }),
      ("b", { id := "b", text := " a time", parentId := some "a", childIds := [], locked := false })]
    rootId := "a"
    currentNodeId := "a"
    bookmarkedNodeIds := [] }

def exampleExtractedB : TreeNode :=
  { id := "b", text := " a time", parentId := some "a", childIds := [], locked := false }

/-- A single-node tree whose root (and current node) is locked. -/
def lockedRootNode : TreeNode :=
  { id := "r", text := "", parentId := none, childIds := [], locked := true, lockReason := some LockReason.scoutActive }

def lockedTree : Tree :=
  { id := "locked"
    name := "locked"
    nodes := [("r", lockedRootNode)]
    rootId := "r"
    currentNodeId := "r"
    bookmarkedNodeIds := [] }

def exampleScout : ScoutConfig :=
  { id := "s1", type := AgentType.scout, active := false, activeNodeId := none }

def examplePanel : ScoutPanelState :=
  { currentTree := some lockedTree, scouts := [exampleScout], activeScouts := [("s0", false)] }

def examplePanel2 : ScoutPanelState :=
  { currentTree := none, scouts := [exampleScout], activeScouts := [("s1", false)] }

def exampleResults : Nat → Except String Nat :=
  fun n => if n = 0 then Except.error "boom" else Except.ok 42

def exampleFailing : Nat → Except String Nat :=
  fun _ => Except.error "dead"

/-! ## Counterexample and witnesses -/

/-- C4 counterexample: in `exampleTree` the current node `a` is non-root,
unlocked, and has a child; yet `handleCull` removes nothing — `a` (and
its subtree) is still in the tree, the cursor merely moves to the first
child.  This refutes the claim that the cull command always removes the
current node together with its subtree. -/
theorem handleCull_no_removal_counterexample :
    exampleTree.currentNodeId = "a"
    ∧ exampleTree.get "a" = some exampleANode
    ∧ exampleANode.id ≠ exampleTree.rootId
    ∧ exampleANode.locked = false
    ∧ handleCull (some exampleTree) = some (setCurrentNode exampleTree "b")
    ∧ (setCurrentNode exampleTree "b").get "a" = some exampleANode :=
  ⟨rfl, rfl, by decide, rfl, rfl, rfl⟩

theorem extractSubtree_createNewTree_validity_witness :
    (∃ r, extractSubtree exampleTree "a" "sub" = some r ∧ ValidTree r ∧ r.rootId = "a" ∧
      r.currentNodeId = r.rootId ∧ ∃ rn, r.get "a" = some rn ∧ rn.parentId = none)
    ∧ ValidTree (createNewTree "fresh" "root1") :=
  ⟨extractSubtree_createNewTree_validity.1 exampleTree "a" "sub" exampleANode
      exampleTree_valid rfl,
    (extractSubtree_createNewTree_validity.2 "fresh" "root1").1⟩

theorem loadTree_clears_locks_witness :
    (loadTreeLocalStorage examplePersisted).get "n1" = some exampleLoadedNode
    ∧ exampleLoadedNode.locked = false ∧ exampleLoadedNode.lockReason = none :=
  ⟨by decide, (loadTree_clears_locks examplePersisted "n1" exampleLoadedNode).1 (by decide)⟩

theorem getBranchText_path_concat_witness :
    ValidTree exampleTree ∧ RPath exampleTree "b" ["r", "a", "b"]
    ∧ getBranchText exampleTree "b" = String.join (["r", "a", "b"].map (textOf exampleTree)) :=
  ⟨exampleTree_valid, exampleTree_rpath_b,
    getBranchText_path_concat exampleTree "b" ["r", "a", "b"] exampleTree_valid
      exampleTree_rpath_b⟩

theorem handleCull_spec_witness :
    (handleCull (some exampleTree) = some (setCurrentNode exampleTree "b")
      ∧ (setCurrentNode exampleTree "b").nodes = exampleTree.nodes)
    ∧ (handleCull (some leafTree) = some (deleteNode leafTree "a")
      ∧ (deleteNode leafTree "a").get "a" = none) :=
  ⟨(handleCull_spec exampleTree exampleANode exampleTree_valid rfl (by decide) rfl).1
      "b" [] rfl,
    ⟨((handleCull_spec leafTree leafANode leafTree_valid rfl (by decide) rfl).2 rfl).1,
      ((handleCull_spec leafTree leafANode leafTree_valid rfl (by decide) rfl).2 rfl).2.1⟩⟩

theorem massMerge_idempotent_terminating_witness :
    massMerge (massMerge exampleTree) = massMerge exampleTree
    ∧ massMergeAux 5 mergedTree = mergedTree :=
  ⟨massMerge_idempotent_terminating.1 exampleTree exampleTree_valid,
    massMerge_idempotent_terminating.2 mergedTree (by decide) 5⟩

theorem startScout_locked_early_exit_witness :
    (startScout examplePanel "s1").1 = examplePanel
    ∧ ∀ kind, (startScout examplePanel "s1").2 ≠ StartResult.launched kind :=
  startScout_locked_early_exit examplePanel "s1" lockedTree lockedRootNode rfl rfl rfl

theorem extractSubtree_importTree_unlocked_witness :
    (extractSubtree exampleTree "a" "sub" = some exampleExtracted
      ∧ exampleExtracted.get "b" = some exampleExtractedB
      ∧ exampleExtractedB.locked = false ∧ exampleExtractedB.lockReason = none)
    ∧ ((importTree examplePersisted none).get "n1" = some exampleLoadedNode
      ∧ exampleLoadedNode.locked = false ∧ exampleLoadedNode.lockReason = none) :=
  ⟨⟨by decide, rfl,
      extractSubtree_importTree_unlocked.1 exampleTree "a" "sub" exampleExtracted (by decide)
        "b" exampleExtractedB rfl⟩,
    ⟨rfl,
      extractSubtree_importTree_unlocked.2 examplePersisted none "n1" exampleLoadedNode rfl⟩⟩

theorem stopScout_idempotent_witness :
    stopScout (stopScout examplePanel2 "s1") "s1" = stopScout examplePanel2 "s1"
    ∧ lookupFlag (stopScout examplePanel2 "s1").activeScouts "s1" = some true
    ∧ lookupFlag (stopScout examplePanel2 "s1").activeScouts "zz" =
        lookupFlag examplePanel2.activeScouts "zz" :=
  ⟨(stopScout_idempotent examplePanel2 "s1").1,
    (stopScout_idempotent examplePanel2 "s1").2.1 false rfl,
    (stopScout_idempotent examplePanel2 "s1").2.2.2 "zz" (by decide)⟩

theorem getCurrentNodeStartPosition_ancestors_witness :
    ValidTree exampleTree ∧ RPath exampleTree "b" ["r", "a", "b"]
    ∧ (getCurrentNodeStartPosition exampleTree "b" =
        ((["r", "a", "b"].dropLast).map (fun i => (textOf exampleTree i).length)).sum
      ∧ getCurrentNodeStartPosition exampleTree "b" + (textOf exampleTree "b").length =
        (getBranchText exampleTree "b").length) :=
  ⟨exampleTree_valid, exampleTree_rpath_b,
    getCurrentNodeStartPosition_ancestors exampleTree "b" ["r", "a", "b"] exampleTree_valid
      exampleTree_rpath_b⟩

theorem withRetry_spec_witness :
    withRetry exampleResults 3 = (Except.ok 42, 2)
    ∧ (∃ e, exampleFailing 3 = Except.error e ∧
        withRetry exampleFailing 3 = (Except.error e, 4)) :=
  ⟨(withRetry_spec exampleResults 3).2.1 1 42 (by omega)
      (fun j hj => by
        have hj0 : j = 0 := by omega
        subst hj0
        exact ⟨"boom", rfl⟩)
      rfl,
    (withRetry_spec exampleFailing 3).2.2 (fun j _ => ⟨"dead", rfl⟩)⟩

end Helm
